import Mathlib

/-!
# marketing/v20/videos.go

A shallow embedding of `VideoService` (`Get`, `Upload`, `ReadList`) and the
properties of its chunked upload state machine and of its list pipeline.

Conventions of the embedding.

* The outside world (remote server, network, content stream) is an explicit
  state `σ` threaded through every client call; a client method takes the
  world and the current value of its out-parameter and returns the new world,
  the new value of the out-parameter and the Go `error` (`none` is `nil`).
* `int64` values are integers; every subtraction the code performs is wrapped
  to 64 bits (`sub64`).
* The `for size > 0` loop carries fuel: one unit per iteration.
* `ReadList` is the transition system of its two goroutines; its properties
  are stated for every schedule.
-/

namespace v20

/-- Go `error` values, identified by their message. -/
abbrev Error := String

/-! ## 64-bit integers -/

/-- Two's-complement wrap of an integer to the range of `int64`. -/
def wrap64 (x : Int) : Int :=
  (x + 9223372036854775808) % 18446744073709551616 - 9223372036854775808

/-- Go `a - b` on `int64`. -/
def sub64 (a b : Int) : Int := wrap64 (a - b)

/-- The values an `int64` variable can hold. -/
def InInt64 (x : Int) : Prop := -9223372036854775808 ≤ x ∧ x < 9223372036854775808

instance (x : Int) : Decidable (InInt64 x) := by
  unfold InInt64; infer_instance

/-! ## Data model (videos.go, lines 100-176) -/

def advideoFields : List String :=
  ["title", "id", "picture", "description", "from", "format", "length", "status"]

structure uploadVideoRequestStart where
  UploadPhase : String
  FileSize : Int
deriving DecidableEq, Inhabited

structure uploadVideoRequestEnd where
  UploadPhase : String
  UploadSessionID : String
  Title : String
deriving DecidableEq, Inhabited

structure uploadVideoResponse where
  UploadSessionID : String
  VideoID : String
  StartOffset : Int
  EndOffset : Int
deriving DecidableEq, Inhabited

structure finishResponse where
  Success : Bool
deriving DecidableEq, Inhabited

structure VideoCaption where
  ID : String
deriving DecidableEq, Inhabited

structure VideoCursors where
  Before : String
  After : String
deriving DecidableEq, Inhabited

structure VideoPaging where
  Cursors : VideoCursors
deriving DecidableEq, Inhabited

structure VideoCaptions where
  Data : List VideoCaption
  Paging : VideoPaging
deriving DecidableEq, Inhabited

structure VideoFormat where
  EmbedHTML : String
  Filter : String
  Height : Int
  Picture : String
  Width : Int
deriving DecidableEq, Inhabited

structure VideoFrom where
  Name : String
  ID : String
deriving DecidableEq, Inhabited

structure VideoPrivacy where
  Allow : String
  Deny : String
  Description : String
  Friends : String
  Networks : String
  Value : String
deriving DecidableEq, Inhabited

structure VideoProcessing where
  VideoStatus : String
deriving DecidableEq, Inhabited

/-- Video represents an ad video.  The anonymous struct types of the Go
declaration are named `VideoCaptions`, `VideoFormat`, `VideoFrom`,
`VideoPrivacy` and `VideoProcessing`; the `float64` field `Length` is kept as the
rational number its JSON literal denotes.  `default` is the Go zero value. -/
structure Video where
  ContentCategory : String
  CreatedTime : String
  Description : String
  EmbedHTML : String
  Embeddable : Bool
  ID : String
  Icon : String
  Length : Rat
  MonetizationStatus : String
  Picture : String
  IsCrosspostVideo : Bool
  IsCrosspostingEligible : Bool
  IsInstagramEligible : Bool
  PermalinkURL : String
  Published : Bool
  Source : String
  UpdatedTime : String
  Title : String
  AutoGeneratedCaptions : VideoCaptions
  Format : List VideoFormat
  From : VideoFrom
  Privacy : VideoPrivacy
  Status : VideoProcessing
deriving DecidableEq, Inhabited

/-! ## Collaborators outside videos.go -/

/-- Go `io.LimitedReader`: the underlying reader `R` (a handle, its content
lives in the world) and the maximum number of bytes `N` that may still be read
through it. -/
structure io.LimitedReader (ρ : Type) where
  R : ρ
  N : Int
deriving DecidableEq

/-- Go `io.LimitReader(r, n)`. -/
def io.LimitReader {ρ : Type} (r : ρ) (n : Int) : io.LimitedReader ρ := ⟨r, n⟩

/-- Modelled from the spec: the route value of package fb ("route construction
supports versioned path, field-selection, and page-size parameters"), kept as
the record of what was put into it; its rendering `String()` is a parameter. -/
structure fb.RouteBuilder where
  version : String
  path : String
  fields : List String
  limit : Option Nat
deriving DecidableEq

/-- Modelled from the spec: `fb.NewRoute(version, format, args...)`, applied to
the formatted path. -/
def fb.NewRoute (version path : String) : fb.RouteBuilder := ⟨version, path, [], none⟩

/-- Modelled from the spec: `RouteBuilder.Fields`, the field selection. -/
def fb.RouteBuilder.Fields (rb : fb.RouteBuilder) (f : List String) : fb.RouteBuilder :=
  { rb with fields := f }

/-- Modelled from the spec: `RouteBuilder.Limit`, the page size. -/
def fb.RouteBuilder.Limit (rb : fb.RouteBuilder) (n : Nat) : fb.RouteBuilder :=
  { rb with limit := some n }

/-- Go `json.RawMessage`: one undecoded entry of a list response. -/
abbrev json.RawMessage := String

/-- What videos.go uses from outside the `fb.Client` value: the constant
`Version` of package v20 (declared in another file), `fb.IsNotFound`, the
rendering `RouteBuilder.String()` and `json.Unmarshal` into a fresh `Video`.
All four are parameters. -/
structure Outside where
  Version : String
  IsNotFound : Error → Bool
  RouteString : fb.RouteBuilder → String
  Unmarshal : json.RawMessage → Except Error Video

/-- Modelled from the spec: what one call `c.ReadList(ctx, url, jres)` of the
"read paginated list into a channel" primitive does, `fb.Client.ReadList` being
declared outside videos.go: it pushes the raw `entries` into the channel, one
at a time and in this order, and then returns `err`.  Each push is a send on
the channel handed in, so it waits for a receiver; the context is the one of
the caller and is not cancelled during the call. -/
structure fb.Listing where
  entries : List json.RawMessage
  err : Option Error

/-- The methods of `*fb.Client` called by videos.go, as parameters.  `PostJSON`
is used at two request/response types and appears once for each. -/
structure fb.Client (σ ρ : Type) where
  GetJSON : σ → String → Video → σ × Video × Option Error
  PostJSONStart :
    σ → String → uploadVideoRequestStart → uploadVideoResponse → σ × uploadVideoResponse × Option Error
  PostJSONEnd :
    σ → String → uploadVideoRequestEnd → finishResponse → σ × finishResponse × Option Error
  UploadFile :
    σ → String → String → io.LimitedReader ρ → List (String × String) → uploadVideoResponse →
      σ × uploadVideoResponse × Option Error
  ReadList : σ → String → σ × fb.Listing

/-- VideoService works with advideos. -/
structure VideoService (σ ρ : Type) where
  c : fb.Client σ ρ

/-! ## Get and Upload (videos.go, lines 18-73) -/

/-- Get returns a single Video. -/
def VideoService.Get {σ ρ : Type} (o : Outside) (vs : VideoService σ ρ) (s : σ) (id : String) :
    σ × Option Video × Option Error :=
  let res : Video := default
  match vs.c.GetJSON s (o.RouteString ((fb.NewRoute o.Version ("/" ++ id)).Fields advideoFields)) res with
  | (s, _, some err) =>
    if o.IsNotFound err then (s, none, none)
    else (s, none, some err)
  | (s, res, none) => (s, some res, none)

/-- How the transfer loop of `Upload` is left: a transfer failed with `err`
(`Upload` returns at once), the loop condition became false with the variables
`res` and `size` as given, or the fuel ran out while the condition still held. -/
inductive Upload.LoopExit (σ : Type) where
  | failed (s : σ) (err : Error)
  | done (s : σ) (res : uploadVideoResponse) (size : Int)
  | running (s : σ)

/-- The loop `for size > 0` of `Upload` (lines 46-60). -/
def Upload.loop {σ ρ : Type} (vs : VideoService σ ρ) (url title : String) (r : ρ) :
    Nat → σ → uploadVideoResponse → Int → Upload.LoopExit σ
  | 0, s, res, size => if size > 0 then .running s else .done s res size
  | fuel + 1, s, res, size =>
    if size > 0 then
      let chunksize := sub64 res.EndOffset res.StartOffset
      let chunksize := if chunksize > size then size else chunksize
      let size := sub64 size chunksize
      match vs.c.UploadFile s url title (io.LimitReader r chunksize)
          [("upload_phase", "transfer"),
           ("upload_session_id", res.UploadSessionID),
           ("start_offset", toString res.StartOffset)] res with
      | (s, _, some err) => .failed s err
      | (s, res, none) => Upload.loop vs url title r fuel s res size
    else .done s res size

/-- Upload uploads a video from r into an account.  The result is the world
reached and, when `Upload` returned within the fuel, the returned pair. -/
def VideoService.Upload {σ ρ : Type} (o : Outside) (vs : VideoService σ ρ) (fuel : Nat) (s : σ)
    (act title : String) (size : Int) (r : ρ) : σ × Option (Option Video × Option Error) :=
  let url := o.RouteString (fb.NewRoute o.Version ("/act_" ++ act ++ "/advideos"))
  match vs.c.PostJSONStart s url { UploadPhase := "start", FileSize := size } default with
  | (s, _, some err) => (s, some (none, some err))
  | (s, res, none) =>
    match Upload.loop vs url title r fuel s res size with
    | .running s => (s, none)
    | .failed s err => (s, some (none, some err))
    | .done s res _ =>
      match vs.c.PostJSONEnd s url
          { UploadPhase := "finish", UploadSessionID := res.UploadSessionID, Title := title }
          default with
      | (s, _, some err) => (s, some (none, some err))
      | (s, _, none) =>
        let g := vs.Get o s res.VideoID
        (g.1, some g.2)

/-! ## ReadList (videos.go, lines 75-98)

`ReadList` starts two goroutines in an `errgroup.Group` and waits for both.
The embedding is the transition system of the two goroutines: a state holds
where each of them stands, the error recorded by the group and the videos
received so far from the output channel `res`; `ReadList.next` lists the
states one atomic action of one goroutine leads to.  The relay `jres` is
unbuffered (`make(chan json.RawMessage)`), so a push of the fetch goroutine
and a receive of the decode goroutine happen together.  The caller is taken
to receive every video sent on `res`. -/

/-- The goroutine of lines 79-83: `c.ReadList` still has `pending` to push on
`jres` and will then return `err`; or it has returned and `jres` is closed
(`defer close(jres)`). -/
inductive ReadList.FetchTask where
  | pushing (pending : List json.RawMessage) (err : Option Error)
  | returned
deriving DecidableEq

/-- The goroutine of lines 84-95: waiting in `for e := range jres`; holding a
received entry `e` before `json.Unmarshal`; holding the decoded `v` before
`res <- v`; or returned. -/
inductive ReadList.DecodeTask where
  | ranging
  | holding (e : json.RawMessage)
  | sending (v : Video)
  | returned
deriving DecidableEq

/-- A state of a call of `ReadList`: the two goroutines, the first non-nil
error returned by one of them (what `wg.Wait()` will return) and the videos the
caller has received from `res`. -/
structure ReadList.State where
  fetch : ReadList.FetchTask
  decode : ReadList.DecodeTask
  firstErr : Option Error
  out : List Video
deriving DecidableEq

/-- The error kept by `errgroup.Group` when a goroutine returns `err`: the
first non-nil one. -/
def ReadList.record (firstErr err : Option Error) : Option Error :=
  match firstErr with
  | some e => some e
  | none => err

/-- The states reached from `st` by one action: the hand-over of an entry on
`jres`; `json.Unmarshal` followed by `return err` or by the move to `res <- v`;
the send `res <- v`; the return of `c.ReadList` with the closing of `jres`; the
end of the `range` over the closed channel with `return nil`. -/
def ReadList.next (o : Outside) (st : ReadList.State) : List ReadList.State :=
  (match st.fetch, st.decode with
    | .pushing (e :: rest) err, .ranging =>
      [{ st with fetch := .pushing rest err, decode := .holding e }]
    | _, _ => []) ++
  (match st.decode with
    | .holding e =>
      match o.Unmarshal e with
      | .ok v => [{ st with decode := .sending v }]
      | .error err =>
        [{ st with decode := .returned, firstErr := ReadList.record st.firstErr (some err) }]
    | _ => []) ++
  (match st.decode with
    | .sending v => [{ st with decode := .ranging, out := st.out ++ [v] }]
    | _ => []) ++
  (match st.fetch with
    | .pushing [] err =>
      [{ st with fetch := .returned, firstErr := ReadList.record st.firstErr err }]
    | _ => []) ++
  (match st.fetch, st.decode with
    | .returned, .ranging => [{ st with decode := .returned }]
    | _, _ => [])

/-- One action of one goroutine. -/
def ReadList.Step (o : Outside) (s t : ReadList.State) : Prop := t ∈ ReadList.next o s

/-- The states a call can be in, from its initial state. -/
def ReadList.Reachable (o : Outside) (init st : ReadList.State) : Prop :=
  Relation.ReflTransGen (ReadList.Step o) init st

/-- What `ReadList` returns: `wg.Wait()` returns the recorded error once both
goroutines have returned; before that the call has not returned. -/
def ReadList.result (st : ReadList.State) : Option (Option Error) :=
  match st.fetch, st.decode with
  | .returned, .returned => some st.firstErr
  | _, _ => none

/-- The state in which `ReadList` starts its two goroutines: the fetch
goroutine calls `c.ReadList` on the list route of the account, the decode
goroutine waits on `jres`, no error is recorded and nothing was sent. -/
def VideoService.ReadList {σ ρ : Type} (o : Outside) (vs : VideoService σ ρ) (s : σ)
    (act : String) : ReadList.State :=
  let listing := (vs.c.ReadList s (o.RouteString
    (((fb.NewRoute o.Version ("/act_" ++ act ++ "/advideos")).Fields advideoFields).Limit 1000))).2
  { fetch := .pushing listing.entries listing.err, decode := .ranging, firstErr := none, out := [] }

/-- A run of the call under the scheduler that always takes the first enabled
action, for at most `fuel` actions. -/
def ReadList.run (o : Outside) : Nat → ReadList.State → ReadList.State
  | 0, st => st
  | fuel + 1, st =>
    match ReadList.next o st with
    | [] => st
    | t :: _ => ReadList.run o fuel t

/-! ## Observing the client calls of a run -/

/-- One call of a client method as it happened: the arguments, the value left
in the out-parameter and the returned error. -/
inductive Event (ρ : Type) where
  | GetJSON (url : String) (out : Video) (err : Option Error)
  | PostJSONStart (url : String) (body : uploadVideoRequestStart) (out : uploadVideoResponse)
      (err : Option Error)
  | UploadFile (url name : String) (r : io.LimitedReader ρ) (params : List (String × String))
      (out : uploadVideoResponse) (err : Option Error)
  | PostJSONEnd (url : String) (body : uploadVideoRequestEnd) (out : finishResponse)
      (err : Option Error)
deriving DecidableEq

/-- The client `c` with a journal: every call made by `Get` and `Upload` is
appended, in order, to the list kept next to the world of `c`; the behaviour
of `c` is unchanged. -/
def fb.Client.logged {σ ρ : Type} (c : fb.Client σ ρ) : fb.Client (σ × List (Event ρ)) ρ where
  GetJSON := fun s url v =>
    match c.GetJSON s.1 url v with
    | (s1, out, err) => ((s1, s.2 ++ [Event.GetJSON url out err]), out, err)
  PostJSONStart := fun s url body v =>
    match c.PostJSONStart s.1 url body v with
    | (s1, out, err) => ((s1, s.2 ++ [Event.PostJSONStart url body out err]), out, err)
  PostJSONEnd := fun s url body v =>
    match c.PostJSONEnd s.1 url body v with
    | (s1, out, err) => ((s1, s.2 ++ [Event.PostJSONEnd url body out err]), out, err)
  UploadFile := fun s url name r params v =>
    match c.UploadFile s.1 url name r params v with
    | (s1, out, err) => ((s1, s.2 ++ [Event.UploadFile url name r params out err]), out, err)
  ReadList := fun s url => (((c.ReadList s.1 url).1, s.2), (c.ReadList s.1 url).2)

/-- The service whose client keeps a journal. -/
def VideoService.logged {σ ρ : Type} (vs : VideoService σ ρ) : VideoService (σ × List (Event ρ)) ρ :=
  ⟨vs.c.logged⟩

/-- The error a call returned. -/
def Event.err {ρ : Type} : Event ρ → Option Error
  | .GetJSON _ _ err => err
  | .PostJSONStart _ _ _ err => err
  | .UploadFile _ _ _ _ _ err => err
  | .PostJSONEnd _ _ _ err => err

/-- The method that was called. -/
inductive Method where
  | get | start | transfer | finish
deriving DecidableEq, Repr

def Event.method {ρ : Type} : Event ρ → Method
  | .GetJSON .. => .get
  | .PostJSONStart .. => .start
  | .UploadFile .. => .transfer
  | .PostJSONEnd .. => .finish

/-- The chunk sizes of the transfer calls of a journal, in order: the limit
`N` of the reader handed to each `UploadFile`. -/
def chunkSizes {ρ : Type} : List (Event ρ) → List Int
  | [] => []
  | .UploadFile _ _ r _ _ _ :: evs => r.N :: chunkSizes evs
  | _ :: evs => chunkSizes evs

/-! ## Sample servers -/

/-- Sample parameters: a version string, a route rendering that keeps version
and path, the not-found classification of the error "not found", and a decoder
that rejects the entry "bad" and reads any other entry as the id of a video. -/
def sampleOutside : Outside where
  Version := "v20.0"
  IsNotFound := fun e => e == "not found"
  RouteString := fun rb => rb.version ++ rb.path
  Unmarshal := fun raw =>
    if raw = "bad" then .error "unexpected end of JSON input"
    else .ok { (default : Video) with ID := raw }

/-- A server that answers the start request and every transfer with the same
response `resp`, accepts the finish request with flag `ok`, and answers the
read of a video with `getErr` when that is an error and else with a video
whose id is the requested route. -/
def constantServer (resp : uploadVideoResponse) (ok : Bool) (getErr : Option Error) :
    fb.Client Unit Unit where
  GetJSON := fun s url v =>
    match getErr with
    | some e => (s, v, some e)
    | none => (s, { v with ID := url }, none)
  PostJSONStart := fun s _ _ _ => (s, resp, none)
  PostJSONEnd := fun s _ _ _ => (s, ⟨ok⟩, none)
  UploadFile := fun s _ _ _ _ _ => (s, resp, none)
  ReadList := fun s _ => (s, ⟨[], none⟩)

/-- A server whose paginated read emits `entries` and then returns `err`. -/
def listServer (entries : List json.RawMessage) (err : Option Error) : fb.Client Unit Unit where
  GetJSON := fun s _ v => (s, v, none)
  PostJSONStart := fun s _ _ v => (s, v, none)
  PostJSONEnd := fun s _ _ v => (s, v, none)
  UploadFile := fun s _ _ _ _ v => (s, v, none)
  ReadList := fun s _ => (s, ⟨entries, err⟩)

/-- One scripted answer to a start or transfer request. -/
abbrev Answer := uploadVideoResponse × Option Error

/-- A server that answers the start request and the transfers from a script,
one answer per request, and fails with "EOF" once the script is used up; the
finish request fails with `finishErr` when that is an error. -/
def scriptedServer (finishErr : Option Error) : fb.Client (List Answer) Unit where
  GetJSON := fun s url v => (s, { v with ID := url }, none)
  PostJSONStart := fun s _ _ v =>
    match s with
    | [] => ([], v, some "EOF")
    | a :: rest => (rest, a.1, a.2)
  PostJSONEnd := fun s _ _ v => (s, v, finishErr)
  UploadFile := fun s _ _ _ _ v =>
    match s with
    | [] => ([], v, some "EOF")
    | a :: rest => (rest, a.1, a.2)
  ReadList := fun s _ => (s, ⟨[], none⟩)

/-! ## Auxiliary notions used in the proofs -/

/-- The value of `chunksize` computed in one iteration (lines 47-50) from the
loop variables `res` and `size`. -/
def chunkOf (res : uploadVideoResponse) (size : Int) : Int :=
  if sub64 res.EndOffset res.StartOffset > size then size
  else sub64 res.EndOffset res.StartOffset

/-- The form fields of a transfer request (lines 52-56). -/
def transferParams (res : uploadVideoResponse) : List (String × String) :=
  [("upload_phase", "transfer"),
   ("upload_session_id", res.UploadSessionID),
   ("start_offset", toString res.StartOffset)]

/-- The world in which the loop was left. -/
def Upload.LoopExit.world {σ : Type} : Upload.LoopExit σ → σ
  | .failed s _ => s
  | .done s _ _ => s
  | .running s => s

/-- A loop exit without its world. -/
inductive Outcome where
  | failed (err : Error)
  | done (res : uploadVideoResponse) (size : Int)
  | running
deriving DecidableEq

def Upload.LoopExit.outcome {σ : Type} : Upload.LoopExit σ → Outcome
  | .failed _ err => .failed err
  | .done _ res size => .done res size
  | .running _ => .running

/-- The journal entry of the transfer issued from the loop variables `res` and
`size`, answered with `out` and `err`. -/
def transferEvent {ρ : Type} (url title : String) (r : ρ) (res : uploadVideoResponse) (size : Int)
    (out : uploadVideoResponse) (err : Option Error) : Event ρ :=
  Event.UploadFile url title (io.LimitReader r (chunkOf res size)) (transferParams res) out err

/-- The journal entries a run of the transfer loop can write, from the loop
variables `res` and `size`, and how the loop is left. -/
inductive Rounds {ρ : Type} (url title : String) (r : ρ) :
    uploadVideoResponse → Int → List (Event ρ) → Outcome → Prop where
  | stop (res : uploadVideoResponse) (size : Int) (h : ¬ size > 0) :
      Rounds url title r res size [] (.done res size)
  | pause (res : uploadVideoResponse) (size : Int) (h : size > 0) :
      Rounds url title r res size [] .running
  | fail (res : uploadVideoResponse) (size : Int) (out : uploadVideoResponse) (err : Error)
      (h : size > 0) :
      Rounds url title r res size [transferEvent url title r res size out (some err)] (.failed err)
  | step (res : uploadVideoResponse) (size : Int) (out : uploadVideoResponse)
      (evs : List (Event ρ)) (fin : Outcome) (h : size > 0)
      (tail : Rounds url title r out (sub64 size (chunkOf res size)) evs fin) :
      Rounds url title r res size (transferEvent url title r res size out none :: evs) fin

/-- The route `Upload` posts to. -/
def uploadURL (o : Outside) (act : String) : String :=
  o.RouteString (fb.NewRoute o.Version ("/act_" ++ act ++ "/advideos"))

/-- The route `Get` reads. -/
def getURL (o : Outside) (id : String) : String :=
  o.RouteString ((fb.NewRoute o.Version ("/" ++ id)).Fields advideoFields)

/-- What `Get` returns for the outcome of its read. -/
def getResult (o : Outside) (out : Video) (err : Option Error) : Option Video × Option Error :=
  match err with
  | some e => if o.IsNotFound e then (none, none) else (none, some e)
  | none => (some out, none)

/-- The journal entry of the start request. -/
def startEvent {ρ : Type} (o : Outside) (act : String) (size : Int) (out : uploadVideoResponse)
    (err : Option Error) : Event ρ :=
  Event.PostJSONStart (uploadURL o act) ⟨"start", size⟩ out err

/-- The journal entry of the finish request sent from the loop variable `res`. -/
def finishEvent {ρ : Type} (o : Outside) (act title : String) (res : uploadVideoResponse)
    (out : finishResponse) (err : Option Error) : Event ρ :=
  Event.PostJSONEnd (uploadURL o act) ⟨"finish", res.UploadSessionID, title⟩ out err

/-- The journal entry of the read issued by `Get`. -/
def getEvent {ρ : Type} (o : Outside) (id : String) (out : Video) (err : Option Error) : Event ρ :=
  Event.GetJSON (getURL o id) out err

/-- The journals a call of `Upload` can write, with what the call returns
(`none` while the loop is still running). -/
inductive UploadRun {ρ : Type} (o : Outside) (act title : String) (size : Int) (r : ρ) :
    List (Event ρ) → Option (Option Video × Option Error) → Prop where
  | startFailed (out : uploadVideoResponse) (e : Error) :
      UploadRun o act title size r [startEvent o act size out (some e)] (some (none, some e))
  | running (out0 : uploadVideoResponse) (evs : List (Event ρ))
      (h : Rounds (uploadURL o act) title r out0 size evs .running) :
      UploadRun o act title size r (startEvent o act size out0 none :: evs) none
  | transferFailed (out0 : uploadVideoResponse) (evs : List (Event ρ)) (e : Error)
      (h : Rounds (uploadURL o act) title r out0 size evs (.failed e)) :
      UploadRun o act title size r (startEvent o act size out0 none :: evs) (some (none, some e))
  | finishFailed (out0 : uploadVideoResponse) (evs : List (Event ρ)) (res : uploadVideoResponse)
      (size1 : Int) (fout : finishResponse) (e : Error)
      (h : Rounds (uploadURL o act) title r out0 size evs (.done res size1)) :
      UploadRun o act title size r
        (startEvent o act size out0 none :: (evs ++ [finishEvent o act title res fout (some e)]))
        (some (none, some e))
  | finished (out0 : uploadVideoResponse) (evs : List (Event ρ)) (res : uploadVideoResponse)
      (size1 : Int) (fout : finishResponse) (gout : Video) (gerr : Option Error)
      (h : Rounds (uploadURL o act) title r out0 size evs (.done res size1)) :
      UploadRun o act title size r
        (startEvent o act size out0 none ::
          (evs ++ [finishEvent o act title res fout none, getEvent o res.VideoID gout gerr]))
        (some (getResult o gout gerr))

/-- The chunk rule of the specification, checked along a journal: every
transfer asks for a chunk of exactly `min (end_offset - start_offset) remaining`,
where the offsets are those of the most recent response (the start response or
the previous transfer response), `remaining` starts at the declared file size
and is decreased by every chunk, and `diff` is the subtraction in use. -/
def chunkRule {ρ : Type} (diff : Int → Int → Int) :
    uploadVideoResponse → Int → List (Event ρ) → Bool
  | _, _, [] => true
  | _, _, .PostJSONStart _ body out _ :: evs => chunkRule diff out body.FileSize evs
  | prev, rem, .UploadFile _ _ lr _ out _ :: evs =>
    decide (lr.N = min (diff prev.EndOffset prev.StartOffset) rem) &&
      chunkRule diff out (diff rem lr.N) evs
  | prev, rem, .PostJSONEnd _ _ _ _ :: evs => chunkRule diff prev rem evs
  | prev, rem, .GetJSON _ _ _ :: evs => chunkRule diff prev rem evs

/-- The event is not a successful start or transfer response, or it grants a
window of exactly `w` bytes: end_offset - start_offset, as the loop computes
it from the response, is `w`. -/
def grantsWindow {ρ : Type} (w : Int) : Event ρ → Bool
  | .PostJSONStart _ _ out none => decide (sub64 out.EndOffset out.StartOffset = w)
  | .UploadFile _ _ _ _ out none => decide (sub64 out.EndOffset out.StartOffset = w)
  | _ => true

/-- The event is not a successful start or transfer response, or the exact
difference end_offset - start_offset of the response fits in an `int64`. -/
def windowFits {ρ : Type} : Event ρ → Bool
  | .PostJSONStart _ _ out none => decide (InInt64 (out.EndOffset - out.StartOffset))
  | .UploadFile _ _ _ _ out none => decide (InInt64 (out.EndOffset - out.StartOffset))
  | _ => true

/-- The ceiling of `n / w` for `0 ≤ n` and `0 < w`. -/
def ceilDiv (n w : Int) : Nat := ((n + w - 1) / w).toNat

/-- The responses written into `res` by the start request and the transfers of
a journal, in order. -/
def responses {ρ : Type} : List (Event ρ) → List uploadVideoResponse
  | [] => []
  | .PostJSONStart _ _ out _ :: evs => out :: responses evs
  | .UploadFile _ _ _ _ out _ :: evs => out :: responses evs
  | .PostJSONEnd _ _ _ _ :: evs => responses evs
  | .GetJSON _ _ _ :: evs => responses evs

/-- The routes read with `GetJSON` in a journal, in order. -/
def getRequests {ρ : Type} : List (Event ρ) → List String
  | [] => []
  | .GetJSON url _ _ :: evs => url :: getRequests evs
  | .PostJSONStart _ _ _ _ :: evs => getRequests evs
  | .UploadFile _ _ _ _ _ _ :: evs => getRequests evs
  | .PostJSONEnd _ _ _ _ :: evs => getRequests evs

/-- The windows the loop reads along a journal: for every transfer, the
difference end_offset - start_offset, as line 47 computes it, of the response
that was the most recent one when the transfer was prepared (the start
response or the previous transfer response, `prev` at the head of the
journal).  The answer to the last transfer is not read. -/
def windowsRead {ρ : Type} : uploadVideoResponse → List (Event ρ) → List Int
  | _, [] => []
  | _, .PostJSONStart _ _ out _ :: evs => windowsRead out evs
  | prev, .UploadFile _ _ _ _ out _ :: evs =>
    sub64 prev.EndOffset prev.StartOffset :: windowsRead out evs
  | prev, .PostJSONEnd _ _ _ _ :: evs => windowsRead prev evs
  | prev, .GetJSON _ _ _ :: evs => windowsRead prev evs

/-- The value of the loop counter `size` after the chunks `chunks` were taken
from it by `size -= chunksize`. -/
def remainingAfter (size : Int) (chunks : List Int) : Int := chunks.foldl sub64 size

/-- The client `c` with the `success` flag of every finish response set to
`b`; the world and the error of the finish request are those of `c`. -/
def fb.Client.withFinishFlag {σ ρ : Type} (c : fb.Client σ ρ) (b : Bool) : fb.Client σ ρ where
  GetJSON := c.GetJSON
  PostJSONStart := c.PostJSONStart
  PostJSONEnd := fun s url body v =>
    ((c.PostJSONEnd s url body v).1, ⟨b⟩, (c.PostJSONEnd s url body v).2.2)
  UploadFile := c.UploadFile
  ReadList := c.ReadList

/-- The journal entry without the `success` flag of a finish response. -/
def Event.eraseFlag {ρ : Type} : Event ρ → Event ρ
  | .PostJSONEnd url body _ err => .PostJSONEnd url body ⟨false⟩ err
  | ev => ev

/-- What is observed of a run of `Upload` apart from the `success` flag: the
returned pair, the world of the client and the journal without the flag. -/
def observe {σ ρ : Type} (run : (σ × List (Event ρ)) × Option (Option Video × Option Error)) :
    Option (Option Video × Option Error) × σ × List (Event ρ) :=
  (run.2, run.1.1, run.1.2.map Event.eraseFlag)

/-- The route `ReadList` pages through. -/
def listURL (o : Outside) (act : String) : String :=
  o.RouteString
    (((fb.NewRoute o.Version ("/act_" ++ act ++ "/advideos")).Fields advideoFields).Limit 1000)

/-- The raw entry decodes into a video. -/
def Decodes (o : Outside) (e : json.RawMessage) : Prop := ∃ v, o.Unmarshal e = .ok v

/-- The videos the raw entries decode to, in order; an entry that does not
decode contributes nothing. -/
def decoded (o : Outside) (l : List json.RawMessage) : List Video :=
  l.filterMap (fun e =>
    match o.Unmarshal e with
    | .ok v => some v
    | .error _ => none)

/-- A bound on the number of actions left: three per entry still to be pushed,
one for the return of the fetch goroutine, and what the decode goroutine has
left to do with the entry in its hands. -/
def ReadList.weight (st : ReadList.State) : Nat :=
  (match st.fetch with
    | .pushing p _ => 3 * p.length + 1
    | .returned => 0) +
  (match st.decode with
    | .ranging => 1
    | .holding _ => 3
    | .sending _ => 2
    | .returned => 0)

/-- The states a call on `entries` and `ferr` goes through: `done` is the part
of the entries the decode goroutine is through with, all of it decodable. -/
inductive Shape (o : Outside) (entries : List json.RawMessage) (ferr : Option Error) :
    ReadList.State → Prop where
  | ranging (done pend : List json.RawMessage) (h : entries = done ++ pend)
      (hok : ∀ e ∈ done, Decodes o e) :
      Shape o entries ferr ⟨.pushing pend ferr, .ranging, none, decoded o done⟩
  | holding (done : List json.RawMessage) (e : json.RawMessage) (pend : List json.RawMessage)
      (h : entries = done ++ e :: pend) (hok : ∀ e ∈ done, Decodes o e) :
      Shape o entries ferr ⟨.pushing pend ferr, .holding e, none, decoded o done⟩
  | sending (done : List json.RawMessage) (e : json.RawMessage) (v : Video)
      (pend : List json.RawMessage) (h : entries = done ++ e :: pend)
      (hok : ∀ e ∈ done, Decodes o e) (hv : o.Unmarshal e = .ok v) :
      Shape o entries ferr ⟨.pushing pend ferr, .sending v, none, decoded o done⟩
  | failed (done : List json.RawMessage) (e : json.RawMessage) (err : Error)
      (pend : List json.RawMessage) (h : entries = done ++ e :: pend)
      (hok : ∀ e ∈ done, Decodes o e) (hv : o.Unmarshal e = .error err) :
      Shape o entries ferr ⟨.pushing pend ferr, .returned, some err, decoded o done⟩
  | closedRanging (hok : ∀ e ∈ entries, Decodes o e) :
      Shape o entries ferr ⟨.returned, .ranging, ferr, decoded o entries⟩
  | closedHolding (done : List json.RawMessage) (e : json.RawMessage)
      (h : entries = done ++ [e]) (hok : ∀ e ∈ done, Decodes o e) :
      Shape o entries ferr ⟨.returned, .holding e, ferr, decoded o done⟩
  | closedSending (done : List json.RawMessage) (e : json.RawMessage) (v : Video)
      (h : entries = done ++ [e]) (hok : ∀ e ∈ done, Decodes o e) (hv : o.Unmarshal e = .ok v) :
      Shape o entries ferr ⟨.returned, .sending v, ferr, decoded o done⟩
  | closedFailed (done : List json.RawMessage) (e : json.RawMessage) (err : Error)
      (h : entries = done ++ [e]) (hok : ∀ e ∈ done, Decodes o e)
      (hv : o.Unmarshal e = .error err) (fe : Option Error)
      (hfe : fe = some err ∨ fe = ReadList.record ferr (some err)) :
      Shape o entries ferr ⟨.returned, .returned, fe, decoded o done⟩
  | finished (hok : ∀ e ∈ entries, Decodes o e) :
      Shape o entries ferr ⟨.returned, .returned, ferr, decoded o entries⟩

/-- A loop exit seen in another world. -/
def Upload.LoopExit.map {σ τ : Type} (f : σ → τ) : Upload.LoopExit σ → Upload.LoopExit τ
  | .failed s err => .failed (f s) err
  | .done s res size => .done (f s) res size
  | .running s => .running (f s)

/-! ## Lemmas -/

theorem wrap64_eq {x : Int} (h : InInt64 x) : wrap64 x = x := by
  unfold InInt64 at h
  unfold wrap64
  omega

theorem wrap64_inInt64 (x : Int) : InInt64 (wrap64 x) := by
  unfold InInt64 wrap64
  omega

theorem chunkOf_le_size (res : uploadVideoResponse) (size : Int) : chunkOf res size ≤ size := by
  unfold chunkOf
  split <;> omega

theorem chunkOf_le_window (res : uploadVideoResponse) (size : Int) :
    chunkOf res size ≤ sub64 res.EndOffset res.StartOffset := by
  unfold chunkOf
  split <;> omega

theorem chunkOf_eq_min (res : uploadVideoResponse) (size : Int) :
    chunkOf res size = min (sub64 res.EndOffset res.StartOffset) size := by
  unfold chunkOf
  split
  · rw [min_eq_right]; omega
  · rw [min_eq_left]; omega

/-- The loop leaves at once when the condition is false. -/
theorem loop_of_not_pos {σ ρ : Type} (vs : VideoService σ ρ) (url title : String) (r : ρ)
    (fuel : Nat) (s : σ) (res : uploadVideoResponse) (size : Int) (h : ¬ size > 0) :
    Upload.loop vs url title r fuel s res size = .done s res size := by
  cases fuel <;> simp [Upload.loop, h]

/-- One iteration of the loop, read off the answer of the client. -/
theorem loop_succ {σ ρ : Type} (vs : VideoService σ ρ) (url title : String) (r : ρ)
    (fuel : Nat) (s : σ) (res : uploadVideoResponse) (size : Int) (h : size > 0)
    (s1 : σ) (out : uploadVideoResponse) (err : Option Error)
    (hcall : vs.c.UploadFile s url title (io.LimitReader r (chunkOf res size))
      (transferParams res) res = (s1, out, err)) :
    Upload.loop vs url title r (fuel + 1) s res size =
      match err with
      | some e => .failed s1 e
      | none => Upload.loop vs url title r fuel s1 out (sub64 size (chunkOf res size)) := by
  simp only [chunkOf, transferParams] at hcall ⊢
  cases err <;> simp [Upload.loop, h, hcall]

/-- A transfer call of the journalled client. -/
theorem logged_UploadFile {σ ρ : Type} (c : fb.Client σ ρ) (s : σ) (log : List (Event ρ))
    (url title : String) (lr : io.LimitedReader ρ) (params : List (String × String))
    (res : uploadVideoResponse) :
    c.logged.UploadFile (s, log) url title lr params res =
      (((c.UploadFile s url title lr params res).1,
        log ++ [Event.UploadFile url title lr params (c.UploadFile s url title lr params res).2.1
          (c.UploadFile s url title lr params res).2.2]),
       (c.UploadFile s url title lr params res).2.1,
       (c.UploadFile s url title lr params res).2.2) := rfl

/-- A start request of the journalled client. -/
theorem logged_PostJSONStart {σ ρ : Type} (c : fb.Client σ ρ) (s : σ × List (Event ρ))
    (url : String) (body : uploadVideoRequestStart) (res : uploadVideoResponse) :
    c.logged.PostJSONStart s url body res =
      (((c.PostJSONStart s.1 url body res).1,
        s.2 ++ [Event.PostJSONStart url body (c.PostJSONStart s.1 url body res).2.1
          (c.PostJSONStart s.1 url body res).2.2]),
       (c.PostJSONStart s.1 url body res).2.1,
       (c.PostJSONStart s.1 url body res).2.2) := rfl

/-- A finish request of the journalled client. -/
theorem logged_PostJSONEnd {σ ρ : Type} (c : fb.Client σ ρ) (s : σ × List (Event ρ))
    (url : String) (body : uploadVideoRequestEnd) (res : finishResponse) :
    c.logged.PostJSONEnd s url body res =
      (((c.PostJSONEnd s.1 url body res).1,
        s.2 ++ [Event.PostJSONEnd url body (c.PostJSONEnd s.1 url body res).2.1
          (c.PostJSONEnd s.1 url body res).2.2]),
       (c.PostJSONEnd s.1 url body res).2.1,
       (c.PostJSONEnd s.1 url body res).2.2) := rfl

/-- The journal of the transfer loop: the entries written by the loop extend
the journal it started with and are rounds of the loop. -/
theorem loop_journal {σ ρ : Type} (vs : VideoService σ ρ) (url title : String) (r : ρ)
    (fuel : Nat) (s : σ) (log : List (Event ρ)) (res : uploadVideoResponse) (size : Int) :
    ∃ evs, (Upload.loop vs.logged url title r fuel (s, log) res size).world.2 = log ++ evs ∧
      Rounds url title r res size evs
        (Upload.loop vs.logged url title r fuel (s, log) res size).outcome := by
  induction fuel generalizing s log res size with
  | zero =>
    refine ⟨[], ?_⟩
    by_cases h : size > 0
    · simp [Upload.loop, h, Upload.LoopExit.world, Upload.LoopExit.outcome]
      exact Rounds.pause res size h
    · simp [Upload.loop, h, Upload.LoopExit.world, Upload.LoopExit.outcome]
      exact Rounds.stop res size (by omega)
  | succ fuel ih =>
    by_cases h : size > 0
    · rcases hcall : vs.c.UploadFile s url title (io.LimitReader r (chunkOf res size))
        (transferParams res) res with ⟨s1, out, err⟩
      have hl : vs.logged.c.UploadFile (s, log) url title (io.LimitReader r (chunkOf res size))
          (transferParams res) res =
          ((s1, log ++ [transferEvent url title r res size out err]), out, err) := by
        rw [show vs.logged.c = vs.c.logged from rfl, logged_UploadFile, hcall]
        rfl
      rw [loop_succ vs.logged url title r fuel (s, log) res size h _ _ _ hl]
      cases err with
      | some e =>
        refine ⟨[transferEvent url title r res size out (some e)], ?_, ?_⟩
        · simp [Upload.LoopExit.world, transferEvent]
        · simpa [Upload.LoopExit.outcome] using Rounds.fail res size out e h
      | none =>
        obtain ⟨evs, h1, h2⟩ := ih s1
          (log ++ [transferEvent url title r res size out none]) out
          (sub64 size (chunkOf res size))
        refine ⟨transferEvent url title r res size out none :: evs, ?_, ?_⟩
        · simpa [transferEvent] using h1
        · simpa [transferEvent] using Rounds.step res size out evs _ h h2
    · rw [loop_of_not_pos _ _ _ _ _ _ _ _ h]
      exact ⟨[], by simp [Upload.LoopExit.world], Rounds.stop res size h⟩

theorem get_eq {σ ρ : Type} (o : Outside) (vs : VideoService σ ρ) (s : σ) (id : String) :
    vs.Get o s id =
      ((vs.c.GetJSON s (getURL o id) default).1,
        getResult o (vs.c.GetJSON s (getURL o id) default).2.1
          (vs.c.GetJSON s (getURL o id) default).2.2) := by
  rcases hg : vs.c.GetJSON s (getURL o id) default with ⟨s1, out, err⟩
  unfold getURL at hg
  cases err with
  | none => simp [VideoService.Get, getResult, hg]
  | some e => by_cases h : o.IsNotFound e <;> simp [VideoService.Get, getResult, hg, h]

/-- The five ways a call of `Upload` can go, read off the answers of the
client. -/
theorem upload_cases {σ ρ : Type} (o : Outside) (vs : VideoService σ ρ) (fuel : Nat) (s : σ)
    (act title : String) (size : Int) (r : ρ) :
    (∃ s1 out e, vs.c.PostJSONStart s (uploadURL o act) ⟨"start", size⟩ default = (s1, out, some e) ∧
        vs.Upload o fuel s act title size r = (s1, some (none, some e))) ∨
    (∃ s1 out0, vs.c.PostJSONStart s (uploadURL o act) ⟨"start", size⟩ default = (s1, out0, none) ∧
      ((∃ s2, Upload.loop vs (uploadURL o act) title r fuel s1 out0 size = .running s2 ∧
          vs.Upload o fuel s act title size r = (s2, none)) ∨
       (∃ s2 e, Upload.loop vs (uploadURL o act) title r fuel s1 out0 size = .failed s2 e ∧
          vs.Upload o fuel s act title size r = (s2, some (none, some e))) ∨
       (∃ s2 res size1, Upload.loop vs (uploadURL o act) title r fuel s1 out0 size = .done s2 res size1 ∧
          ((∃ s3 fout e, vs.c.PostJSONEnd s2 (uploadURL o act)
                ⟨"finish", res.UploadSessionID, title⟩ default = (s3, fout, some e) ∧
              vs.Upload o fuel s act title size r = (s3, some (none, some e))) ∨
           (∃ s3 fout, vs.c.PostJSONEnd s2 (uploadURL o act)
                ⟨"finish", res.UploadSessionID, title⟩ default = (s3, fout, none) ∧
              vs.Upload o fuel s act title size r =
                ((vs.Get o s3 res.VideoID).1, some (vs.Get o s3 res.VideoID).2)))))) := by
  rcases hs : vs.c.PostJSONStart s (uploadURL o act) ⟨"start", size⟩ default with ⟨s1, out0, e0⟩
  have hs1 := hs
  unfold uploadURL at hs1
  cases e0 with
  | some e => exact Or.inl ⟨s1, out0, e, rfl, by simp [VideoService.Upload, hs1]⟩
  | none =>
    refine Or.inr ⟨s1, out0, rfl, ?_⟩
    cases hl : Upload.loop vs (uploadURL o act) title r fuel s1 out0 size with
    | running s2 =>
      unfold uploadURL at hl
      exact Or.inl ⟨s2, rfl, by simp [VideoService.Upload, hs1, hl]⟩
    | failed s2 e =>
      unfold uploadURL at hl
      exact Or.inr (Or.inl ⟨s2, e, rfl, by simp [VideoService.Upload, hs1, hl]⟩)
    | done s2 res size1 =>
      refine Or.inr (Or.inr ⟨s2, res, size1, rfl, ?_⟩)
      unfold uploadURL at hl
      rcases hf : vs.c.PostJSONEnd s2 (uploadURL o act) ⟨"finish", res.UploadSessionID, title⟩
        default with ⟨s3, fout, e3⟩
      have hf1 := hf
      unfold uploadURL at hf1
      cases e3 with
      | some e => exact Or.inl ⟨s3, fout, e, rfl, by simp [VideoService.Upload, hs1, hl, hf1]⟩
      | none => exact Or.inr ⟨s3, fout, rfl, by simp [VideoService.Upload, hs1, hl, hf1]⟩

/-- The journal of `Get`: one read, and the result the read determines. -/
theorem get_journal {σ ρ : Type} (o : Outside) (vs : VideoService σ ρ) (s : σ)
    (log : List (Event ρ)) (id : String) :
    vs.logged.Get o (s, log) id =
      (((vs.c.GetJSON s (getURL o id) default).1,
        log ++ [getEvent o id (vs.c.GetJSON s (getURL o id) default).2.1
          (vs.c.GetJSON s (getURL o id) default).2.2]),
       getResult o (vs.c.GetJSON s (getURL o id) default).2.1
         (vs.c.GetJSON s (getURL o id) default).2.2) := by
  rw [get_eq]
  rfl

/-- The journal of `Upload`: the entries written by the call extend the journal
it started with and form one of the five shapes of `UploadRun`. -/
theorem upload_journal {σ ρ : Type} (o : Outside) (vs : VideoService σ ρ) (fuel : Nat) (s : σ)
    (log : List (Event ρ)) (act title : String) (size : Int) (r : ρ) :
    ∃ evs, (vs.logged.Upload o fuel (s, log) act title size r).1.2 = log ++ evs ∧
      UploadRun o act title size r evs (vs.logged.Upload o fuel (s, log) act title size r).2 := by
  have hstart : ∀ (s1 : σ × List (Event ρ)) (out : uploadVideoResponse) (e : Option Error),
      vs.logged.c.PostJSONStart (s, log) (uploadURL o act) ⟨"start", size⟩ default = (s1, out, e) →
      s1.2 = log ++ [startEvent o act size out e] := by
    intro s1 out e h
    rw [show vs.logged.c = vs.c.logged from rfl, logged_PostJSONStart] at h
    simp only [Prod.mk.injEq] at h
    obtain ⟨h3, h4, h5⟩ := h
    rw [← h3, ← h4, ← h5]
    rfl
  have hfinish : ∀ (s2 : σ × List (Event ρ)) (res : uploadVideoResponse)
      (s3 : σ × List (Event ρ)) (fout : finishResponse) (e : Option Error),
      vs.logged.c.PostJSONEnd s2 (uploadURL o act) ⟨"finish", res.UploadSessionID, title⟩ default
        = (s3, fout, e) →
      s3.2 = s2.2 ++ [finishEvent o act title res fout e] := by
    intro s2 res s3 fout e h
    rw [show vs.logged.c = vs.c.logged from rfl, logged_PostJSONEnd] at h
    simp only [Prod.mk.injEq] at h
    obtain ⟨h3, h4, h5⟩ := h
    rw [← h3, ← h4, ← h5]
    rfl
  rcases upload_cases o vs.logged fuel (s, log) act title size r with
    ⟨s1, out, e, hs, hu⟩ | ⟨s1, out0, hs, hrest⟩
  · rw [hu]
    exact ⟨_, hstart _ _ _ hs, UploadRun.startFailed out e⟩
  · have h1 := hstart _ _ _ hs
    obtain ⟨s1a, s1b⟩ := s1
    simp only at h1
    subst h1
    obtain ⟨evs, hev, hr⟩ := loop_journal vs (uploadURL o act) title r fuel s1a
      (log ++ [startEvent o act size out0 none]) out0 size
    rcases hrest with ⟨s2, hl, hu⟩ | ⟨s2, e, hl, hu⟩ | ⟨s2, res, size1, hl, hfin⟩
    · rw [hl] at hev hr
      rw [hu]
      refine ⟨startEvent o act size out0 none :: evs, ?_, UploadRun.running out0 evs hr⟩
      simpa [Upload.LoopExit.world] using hev
    · rw [hl] at hev hr
      rw [hu]
      refine ⟨startEvent o act size out0 none :: evs, ?_, UploadRun.transferFailed out0 evs e hr⟩
      simpa [Upload.LoopExit.world] using hev
    · rw [hl] at hev hr
      simp only [Upload.LoopExit.world, Upload.LoopExit.outcome] at hev hr
      rcases hfin with ⟨s3, fout, e, hf, hu⟩ | ⟨s3, fout, hf, hu⟩
      · rw [hu]
        refine ⟨startEvent o act size out0 none :: (evs ++ [finishEvent o act title res fout (some e)]),
          ?_, UploadRun.finishFailed out0 evs res size1 fout e hr⟩
        simp [hfinish _ _ _ _ _ hf, hev]
      · rw [hu]
        obtain ⟨s3a, s3b⟩ := s3
        have h3 := hfinish _ _ _ _ _ hf
        simp only at h3
        rw [get_journal]
        refine ⟨_, ?_, UploadRun.finished out0 evs res size1 fout _ _ hr⟩
        simp [h3, hev]

theorem chunkSizes_append {ρ : Type} (a b : List (Event ρ)) :
    chunkSizes (a ++ b) = chunkSizes a ++ chunkSizes b := by
  induction a with
  | nil => rfl
  | cons ev a ih => cases ev <;> simp [chunkSizes, ih]

theorem chunkSizes_transferEvent {ρ : Type} (url title : String) (r : ρ)
    (res : uploadVideoResponse) (size : Int) (out : uploadVideoResponse) (err : Option Error)
    (evs : List (Event ρ)) :
    chunkSizes (transferEvent url title r res size out err :: evs) =
      chunkOf res size :: chunkSizes evs := rfl

/-- With no overflow and no negative chunk, the chunks of a completed loop add
up to the initial value of `size`, and the loop is left with `size` equal to 0. -/
theorem rounds_sum {ρ : Type} {url title : String} {r : ρ} {res : uploadVideoResponse}
    {size : Int} {evs : List (Event ρ)} {fin : Outcome}
    (h : Rounds url title r res size evs fin) :
    ∀ res1 size1, fin = .done res1 size1 → 0 ≤ size → InInt64 size →
      (∀ N ∈ chunkSizes evs, 0 ≤ N) → (chunkSizes evs).sum = size ∧ size1 = 0 := by
  induction h with
  | stop res size h =>
    intro res1 size1 hfin h0 _ _
    cases hfin
    simp [chunkSizes]
    omega
  | pause res size h => intro res1 size1 hfin; cases hfin
  | fail res size out err h => intro res1 size1 hfin; cases hfin
  | step res size out evs fin h tail ih =>
    intro res1 size1 hfin h0 h64 hN
    rw [chunkSizes_transferEvent] at hN ⊢
    have hc : 0 ≤ chunkOf res size := hN _ (List.mem_cons_self _ _)
    have hle := chunkOf_le_size res size
    have hsub : sub64 size (chunkOf res size) = size - chunkOf res size := by
      apply wrap64_eq
      unfold InInt64 at h64 ⊢
      omega
    rw [hsub] at ih
    have := ih res1 size1 hfin (by omega) (by unfold InInt64 at h64 ⊢; omega)
      (fun N hmem => hN N (List.mem_cons_of_mem _ hmem))
    simp only [List.sum_cons]
    omega

/-- C1: whenever the field-filtered read of `Get` fails with an error that
`fb.IsNotFound` classifies as not-found, `Get` returns an absent video together
with a nil error. -/
theorem Get_not_found {σ ρ : Type} (o : Outside) (vs : VideoService σ ρ) (s : σ) (id : String)
    (s1 : σ) (out : Video) (e : Error)
    (hread : vs.c.GetJSON s (getURL o id) default = (s1, out, some e))
    (hnf : o.IsNotFound e = true) :
    vs.Get o s id = (s1, none, none) := by
  rw [get_eq, hread]
  simp [getResult, hnf]

/-- Scenario of C1: `Get("123")` against a backend answering not-found. -/
theorem Get_not_found_witness :
    (constantServer default true (some "not found")).GetJSON () (getURL sampleOutside "123") default
        = ((), default, some "not found") ∧
      sampleOutside.IsNotFound "not found" = true ∧
      VideoService.Get sampleOutside ⟨constantServer default true (some "not found")⟩ () "123"
        = ((), none, none) :=
  ⟨rfl, rfl, Get_not_found sampleOutside ⟨constantServer default true (some "not found")⟩ () "123"
    () default "not found" rfl rfl⟩

/-- C2 as stated fails: an upload declared with total size -1 succeeds without
any transfer, so its chunk sizes add up to 0 and not to -1; and an upload of
9223372036854775807 bytes whose start response grants the window [1, 0)
succeeds after one transfer of chunk size -1. -/
theorem Upload_chunk_sum_counterexample :
    (((VideoService.logged ⟨scriptedServer none⟩).Upload sampleOutside 5
          ([(⟨"s", "v", 0, 10⟩, none)], []) "1" "t" (-1) ()).2.map Prod.snd = some none ∧
      chunkSizes ((VideoService.logged ⟨scriptedServer none⟩).Upload sampleOutside 5
          ([(⟨"s", "v", 0, 10⟩, none)], []) "1" "t" (-1) ()).1.2 = [] ∧
      (chunkSizes ((VideoService.logged ⟨scriptedServer none⟩).Upload sampleOutside 5
          ([(⟨"s", "v", 0, 10⟩, none)], []) "1" "t" (-1) ()).1.2).sum ≠ -1) ∧
    (((VideoService.logged ⟨scriptedServer none⟩).Upload sampleOutside 5
          ([(⟨"s", "v", 1, 0⟩, none), (⟨"s", "v", 0, 10⟩, none)], []) "1" "t"
          9223372036854775807 ()).2.map Prod.snd = some none ∧
      chunkSizes ((VideoService.logged ⟨scriptedServer none⟩).Upload sampleOutside 5
          ([(⟨"s", "v", 1, 0⟩, none), (⟨"s", "v", 0, 10⟩, none)], []) "1" "t"
          9223372036854775807 ()).1.2 = [-1] ∧
      (chunkSizes ((VideoService.logged ⟨scriptedServer none⟩).Upload sampleOutside 5
          ([(⟨"s", "v", 1, 0⟩, none), (⟨"s", "v", 0, 10⟩, none)], []) "1" "t"
          9223372036854775807 ()).1.2).sum ≠ 9223372036854775807) := by
  decide

/-- C2, amended: for every upload that returns a nil error, has a declared
total size that is not negative, and in which no transfer round had a negative
chunk size, the chunk sizes of all transfer rounds add up to the declared total
size exactly. -/
theorem Upload_chunk_sum {σ ρ : Type} (o : Outside) (vs : VideoService σ ρ) (fuel : Nat) (s : σ)
    (act title : String) (size : Int) (r : ρ) (v : Option Video)
    (hsize : 0 ≤ size) (h64 : InInt64 size)
    (hok : (vs.logged.Upload o fuel (s, []) act title size r).2 = some (v, none))
    (hnonneg : ∀ N ∈ chunkSizes (vs.logged.Upload o fuel (s, []) act title size r).1.2, 0 ≤ N) :
    (chunkSizes (vs.logged.Upload o fuel (s, []) act title size r).1.2).sum = size := by
  obtain ⟨evs, hev, hrun⟩ := upload_journal o vs fuel s [] act title size r
  rw [hev] at hnonneg ⊢
  rw [hok] at hrun
  simp only [List.nil_append] at hnonneg ⊢
  generalize hret : some (v, (none : Option Error)) = ret at hrun
  cases hrun with
  | startFailed out e => simp at hret
  | running out0 evs h => simp at hret
  | transferFailed out0 evs e h => simp at hret
  | finishFailed out0 evs res size1 fout e h => simp at hret
  | finished out0 evs res size1 fout gout gerr h =>
    have hcs : chunkSizes (startEvent o act size out0 none ::
        (evs ++ [finishEvent o act title res fout none, getEvent o res.VideoID gout gerr]))
        = chunkSizes evs := by
      simp [startEvent, finishEvent, getEvent, chunkSizes, chunkSizes_append]
    rw [hcs] at hnonneg ⊢
    exact (rounds_sum h res size1 rfl hsize h64 hnonneg).1

/-- Scenario of C2: 2500 bytes against a server granting 1000-byte windows. -/
theorem Upload_chunk_sum_witness :
    (chunkSizes ((VideoService.logged ⟨constantServer ⟨"s", "v", 0, 1000⟩ true none⟩).Upload
      sampleOutside 3 ((), []) "1" "t" 2500 ()).1.2).sum = 2500 :=
  Upload_chunk_sum sampleOutside ⟨constantServer ⟨"s", "v", 0, 1000⟩ true none⟩ 3 () "1" "t" 2500 ()
    (some { (default : Video) with ID := "v20.0/v" }) (by decide) (by decide) (by rfl) (by decide)

theorem rounds_chunkRule {ρ : Type} {url title : String} {r : ρ} {res : uploadVideoResponse}
    {size : Int} {evs : List (Event ρ)} {fin : Outcome}
    (h : Rounds url title r res size evs fin) : chunkRule sub64 res size evs = true := by
  induction h with
  | stop res size h => rfl
  | pause res size h => rfl
  | fail res size out err h =>
    simp [transferEvent, chunkRule, io.LimitReader, chunkOf_eq_min]
  | step res size out evs fin h tail ih =>
    simpa [transferEvent, chunkRule, io.LimitReader, chunkOf_eq_min] using ih

/-- The loop makes no round when the condition is false. -/
theorem rounds_nil {ρ : Type} {url title : String} {r : ρ} {res : uploadVideoResponse}
    {size : Int} {evs : List (Event ρ)} {fin : Outcome}
    (h : Rounds url title r res size evs fin) (hn : ¬ size > 0) : evs = [] := by
  cases h with
  | stop _ _ _ => rfl
  | pause _ _ h1 => exact (hn h1).elim
  | fail _ _ _ _ h1 => exact (hn h1).elim
  | step _ _ _ _ _ h1 _ => exact (hn h1).elim

/-- When the exact window differences fit in an `int64`, the rounds follow the
chunk rule with the exact subtraction. -/
theorem rounds_chunkRule_exact {ρ : Type} {url title : String} {r : ρ}
    {res : uploadVideoResponse} {size : Int} {evs : List (Event ρ)} {fin : Outcome}
    (h : Rounds url title r res size evs fin) :
    InInt64 size → InInt64 (res.EndOffset - res.StartOffset) →
      (∀ ev ∈ evs, windowFits ev = true) →
      chunkRule (fun a b => a - b) res size evs = true := by
  induction h with
  | stop res size h => intro _ _ _; rfl
  | pause res size h => intro _ _ _; rfl
  | fail res size out err h =>
    intro _ hw _
    have hs : sub64 res.EndOffset res.StartOffset = res.EndOffset - res.StartOffset :=
      wrap64_eq hw
    simp [transferEvent, chunkRule, io.LimitReader, chunkOf_eq_min, hs]
  | step res size out evs fin h tail ih =>
    intro h64 hw hfit
    have hs : sub64 res.EndOffset res.StartOffset = res.EndOffset - res.StartOffset :=
      wrap64_eq hw
    have hout : InInt64 (out.EndOffset - out.StartOffset) := by
      have := hfit _ (List.mem_cons_self _ _)
      simpa [transferEvent, windowFits] using this
    have hle := chunkOf_le_size res size
    have hrest : chunkRule (fun a b => a - b) out (size - chunkOf res size) evs = true := by
      by_cases hin : InInt64 (size - chunkOf res size)
      · have hsub : sub64 size (chunkOf res size) = size - chunkOf res size := wrap64_eq hin
        rw [hsub] at ih
        exact ih hin hout (fun ev hm => hfit ev (List.mem_cons_of_mem _ hm))
      · have hneg : ¬ sub64 size (chunkOf res size) > 0 := by
          have hc := wrap64_inInt64 (res.EndOffset - res.StartOffset)
          have hc2 : -9223372036854775808 ≤ chunkOf res size := by
            rw [chunkOf_eq_min]
            unfold sub64
            unfold InInt64 at hc h64
            exact le_min hc.1 (by omega)
          unfold InInt64 at hin h64
          unfold sub64 wrap64
          omega
        rw [rounds_nil tail hneg]
        rfl
    simpa [transferEvent, chunkRule, io.LimitReader, chunkOf_eq_min, hs] using hrest

theorem chunkRule_append_tail {ρ : Type} (diff : Int → Int → Int) (evs tl : List (Event ρ))
    (htl : ∀ ev ∈ tl, ev.method = .finish ∨ ev.method = .get) :
    ∀ prev rem, chunkRule diff prev rem (evs ++ tl) = chunkRule diff prev rem evs := by
  induction evs with
  | nil =>
    induction tl with
    | nil => intro prev rem; rfl
    | cons ev tl ih =>
      intro prev rem
      have hev := htl ev (List.mem_cons_self _ _)
      have ih2 := ih (fun e he => htl e (List.mem_cons_of_mem _ he)) prev rem
      cases ev <;> simp_all [chunkRule, Event.method]
  | cons ev evs ih =>
    intro prev rem
    cases ev <;> simp [chunkRule, ih]

/-- C3 as stated fails: when the start response carries start_offset = -1 and
end_offset = 9223372036854775807, the first transfer of a 10-byte upload asks
for a chunk of -9223372036854775808, not of min(end - start, 10) = 10; and when
it carries start_offset = 1 and end_offset = -9223372036854775808 the transfer
asks for all 10 bytes although end - start is negative. -/
theorem Upload_chunk_rule_counterexample :
    (chunkRule (fun a b => a - b) default 0
        ((VideoService.logged ⟨scriptedServer none⟩).Upload sampleOutside 5
          ([(⟨"s", "v", -1, 9223372036854775807⟩, none), (⟨"s", "v", 0, 10⟩, none)], [])
          "1" "t" 10 ()).1.2 = false ∧
      chunkSizes ((VideoService.logged ⟨scriptedServer none⟩).Upload sampleOutside 5
          ([(⟨"s", "v", -1, 9223372036854775807⟩, none), (⟨"s", "v", 0, 10⟩, none)], [])
          "1" "t" 10 ()).1.2 = [-9223372036854775808]) ∧
    (chunkRule (fun a b => a - b) default 0
        ((VideoService.logged ⟨scriptedServer none⟩).Upload sampleOutside 5
          ([(⟨"s", "v", 1, -9223372036854775808⟩, none), (⟨"s", "v", 0, 10⟩, none)], [])
          "1" "t" 10 ()).1.2 = false ∧
      chunkSizes ((VideoService.logged ⟨scriptedServer none⟩).Upload sampleOutside 5
          ([(⟨"s", "v", 1, -9223372036854775808⟩, none), (⟨"s", "v", 0, 10⟩, none)], [])
          "1" "t" 10 ()).1.2 = [10]) := by
  decide

/-- C3, amended: in every transfer round of `Upload` the chunk size requested
from the content stream equals `min d remaining`, where `d` is the difference
end_offset - start_offset of the most recent server response computed in
wrapping 64-bit arithmetic and `remaining` is the 64-bit counter of the bytes
that remain; and whenever the exact difference of every response fits in an
`int64`, it equals `min (end_offset - start_offset) remaining` as stated.  This
holds for every journal `Upload` writes, whether or not the call has returned. -/
theorem Upload_chunk_rule {σ ρ : Type} (o : Outside) (vs : VideoService σ ρ) (fuel : Nat) (s : σ)
    (act title : String) (size : Int) (r : ρ) :
    chunkRule sub64 default 0 (vs.logged.Upload o fuel (s, []) act title size r).1.2 = true ∧
    (InInt64 size →
      (∀ ev ∈ (vs.logged.Upload o fuel (s, []) act title size r).1.2, windowFits ev = true) →
      chunkRule (fun a b => a - b) default 0
        (vs.logged.Upload o fuel (s, []) act title size r).1.2 = true) := by
  obtain ⟨evs, hev, hrun⟩ := upload_journal o vs fuel s [] act title size r
  rw [hev]
  simp only [List.nil_append]
  generalize (vs.logged.Upload o fuel (s, []) act title size r).2 = ret at hrun
  have hexact : ∀ (out0 : uploadVideoResponse) (evs tl : List (Event ρ)) (fin : Outcome),
      Rounds (uploadURL o act) title r out0 size evs fin →
      (∀ ev ∈ tl, ev.method = .finish ∨ ev.method = .get) → InInt64 size →
      (∀ ev ∈ startEvent o act size out0 none :: (evs ++ tl), windowFits ev = true) →
      chunkRule (fun a b => a - b) default 0 (startEvent o act size out0 none :: (evs ++ tl))
        = true := by
    intro out0 evs tl fin h htl h64 hfit
    have hout : InInt64 (out0.EndOffset - out0.StartOffset) := by
      have := hfit _ (List.mem_cons_self _ _)
      simpa [startEvent, windowFits] using this
    simp only [startEvent, chunkRule]
    rw [chunkRule_append_tail _ _ _ htl]
    exact rounds_chunkRule_exact h h64 hout
      (fun ev hm => hfit ev (List.mem_cons_of_mem _ (List.mem_append_left _ hm)))
  cases hrun with
  | startFailed out e => exact ⟨rfl, fun _ _ => rfl⟩
  | running out0 evs h =>
    refine ⟨by simpa [startEvent, chunkRule] using rounds_chunkRule h, fun h64 hfit => ?_⟩
    have := hexact out0 evs [] _ h (by simp) h64 (by simpa using hfit)
    simpa using this
  | transferFailed out0 evs e h =>
    refine ⟨by simpa [startEvent, chunkRule] using rounds_chunkRule h, fun h64 hfit => ?_⟩
    have := hexact out0 evs [] _ h (by simp) h64 (by simpa using hfit)
    simpa using this
  | finishFailed out0 evs res size1 fout e h =>
    refine ⟨?_, fun h64 hfit =>
      hexact out0 evs _ _ h (by simp [finishEvent, Event.method]) h64 hfit⟩
    simp only [startEvent, chunkRule]
    rw [chunkRule_append_tail _ _ _ (by simp [finishEvent, Event.method])]
    exact rounds_chunkRule h
  | finished out0 evs res size1 fout gout gerr h =>
    refine ⟨?_, fun h64 hfit =>
      hexact out0 evs _ _ h (by simp [finishEvent, getEvent, Event.method]) h64 hfit⟩
    simp only [startEvent, chunkRule]
    rw [chunkRule_append_tail _ _ _ (by simp [finishEvent, getEvent, Event.method])]
    exact rounds_chunkRule h

/-- Scenario of C3: 2500 bytes under 1000-byte windows follow the rule with
the exact difference. -/
theorem Upload_chunk_rule_witness :
    chunkRule (fun a b => a - b) default 0
      ((VideoService.logged ⟨constantServer ⟨"s", "v", 0, 1000⟩ true none⟩).Upload
        sampleOutside 3 ((), []) "1" "t" 2500 ()).1.2 = true :=
  (Upload_chunk_rule sampleOutside ⟨constantServer ⟨"s", "v", 0, 1000⟩ true none⟩ 3 ()
    "1" "t" 2500 ()).2 (by decide) (by decide)

theorem append_split {α : Type} (a b : List α) (x : α) (post : List α) :
    ∀ pre, a ++ b = pre ++ x :: post →
      (∃ post1, a = pre ++ x :: post1 ∧ post = post1 ++ b) ∨
      (∃ pre2, pre = a ++ pre2 ∧ b = pre2 ++ x :: post) := by
  induction a with
  | nil => intro pre h; exact Or.inr ⟨pre, rfl, h⟩
  | cons y a ih =>
    intro pre h
    cases pre with
    | nil =>
      simp only [List.cons_append, List.nil_append, List.cons.injEq] at h
      exact Or.inl ⟨a, by simp [h.1], h.2.symm⟩
    | cons p pre =>
      simp only [List.cons_append, List.cons.injEq] at h
      rcases ih pre h.2 with ⟨post1, h1, h2⟩ | ⟨pre2, h1, h2⟩
      · exact Or.inl ⟨post1, by simp [h.1, h1], h2⟩
      · exact Or.inr ⟨pre2, by simp [h.1, h1], h2⟩

/-- In the rounds of the loop a failed transfer is the last entry, and the loop
is left with its error. -/
theorem rounds_fail {ρ : Type} {url title : String} {r : ρ} {res : uploadVideoResponse}
    {size : Int} {evs : List (Event ρ)} {fin : Outcome}
    (h : Rounds url title r res size evs fin) :
    ∀ (pre post : List (Event ρ)) (ev : Event ρ) (e : Error),
      evs = pre ++ ev :: post → ev.err = some e → post = [] ∧ fin = .failed e := by
  induction h with
  | stop res size h => intro pre post ev e hs; simp at hs
  | pause res size h => intro pre post ev e hs; simp at hs
  | fail res size out err h =>
    intro pre post ev e hs he
    cases pre with
    | nil =>
      simp only [List.nil_append, List.cons.injEq] at hs
      obtain ⟨h1, h2⟩ := hs
      subst h1
      simp only [transferEvent, Event.err, Option.some.injEq] at he
      exact ⟨h2.symm, by rw [he]⟩
    | cons p pre => simp at hs
  | step res size out evs fin h tail ih =>
    intro pre post ev e hs he
    cases pre with
    | nil =>
      simp only [List.nil_append, List.cons.injEq] at hs
      obtain ⟨h1, h2⟩ := hs
      subst h1
      simp [transferEvent, Event.err] at he
    | cons p pre =>
      simp only [List.cons_append, List.cons.injEq] at hs
      exact ih pre post ev e hs.2 he

/-- C4: in every call of `Upload`, when the start request, a transfer request
or the finish request fails with error `e`, that request is the last client
request of the call (no later transfer, no finish, no read by `Get`) and
`Upload` returns a nil video together with exactly `e`. -/
theorem Upload_fail_fast {σ ρ : Type} (o : Outside) (vs : VideoService σ ρ) (fuel : Nat) (s : σ)
    (act title : String) (size : Int) (r : ρ) (pre post : List (Event ρ)) (ev : Event ρ)
    (e : Error)
    (hsplit : (vs.logged.Upload o fuel (s, []) act title size r).1.2 = pre ++ ev :: post)
    (hphase : ev.method ≠ .get) (herr : ev.err = some e) :
    post = [] ∧ (vs.logged.Upload o fuel (s, []) act title size r).2 = some (none, some e) := by
  obtain ⟨evs, hev, hrun⟩ := upload_journal o vs fuel s [] act title size r
  rw [hev] at hsplit
  simp only [List.nil_append] at hsplit
  generalize (vs.logged.Upload o fuel (s, []) act title size r).2 = ret at hrun
  have hstart : ∀ out0, (startEvent o act size out0 none : Event ρ) = ev → False := by
    intro out0 h
    rw [← h] at herr
    simp [startEvent, Event.err] at herr
  cases hrun with
  | startFailed out e0 =>
    cases pre with
    | nil =>
      simp only [List.nil_append, List.cons.injEq] at hsplit
      obtain ⟨h1, h2⟩ := hsplit
      subst h1
      simp only [startEvent, Event.err, Option.some.injEq] at herr
      exact ⟨h2.symm, by rw [herr]⟩
    | cons p pre => simp at hsplit
  | running out0 evs h =>
    cases pre with
    | nil =>
      simp only [List.nil_append, List.cons.injEq] at hsplit
      exact (hstart out0 hsplit.1).elim
    | cons p pre =>
      simp only [List.cons_append, List.cons.injEq] at hsplit
      have := (rounds_fail h pre post ev e hsplit.2 herr).2
      simp at this
  | transferFailed out0 evs e0 h =>
    cases pre with
    | nil =>
      simp only [List.nil_append, List.cons.injEq] at hsplit
      exact (hstart out0 hsplit.1).elim
    | cons p pre =>
      simp only [List.cons_append, List.cons.injEq] at hsplit
      have h2 := rounds_fail h pre post ev e hsplit.2 herr
      simp only [Outcome.failed.injEq] at h2
      exact ⟨h2.1, by rw [h2.2]⟩
  | finishFailed out0 evs res size1 fout e0 h =>
    cases pre with
    | nil =>
      simp only [List.nil_append, List.cons.injEq] at hsplit
      exact (hstart out0 hsplit.1).elim
    | cons p pre =>
      simp only [List.cons_append, List.cons.injEq] at hsplit
      rcases append_split _ _ _ _ _ hsplit.2 with ⟨post1, h1, _⟩ | ⟨pre2, _, h2⟩
      · have := (rounds_fail h pre post1 ev e h1 herr).2
        simp at this
      · cases pre2 with
        | nil =>
          simp only [List.nil_append, List.cons.injEq] at h2
          obtain ⟨h3, h4⟩ := h2
          subst h3
          simp only [finishEvent, Event.err, Option.some.injEq] at herr
          exact ⟨h4.symm, by rw [herr]⟩
        | cons q pre2 => simp at h2
  | finished out0 evs res size1 fout gout gerr h =>
    cases pre with
    | nil =>
      simp only [List.nil_append, List.cons.injEq] at hsplit
      exact (hstart out0 hsplit.1).elim
    | cons p pre =>
      simp only [List.cons_append, List.cons.injEq] at hsplit
      rcases append_split _ _ _ _ _ hsplit.2 with ⟨post1, h1, _⟩ | ⟨pre2, _, h2⟩
      · have := (rounds_fail h pre post1 ev e h1 herr).2
        simp at this
      · rcases pre2 with _ | ⟨q, _ | ⟨q2, pre2⟩⟩
        · simp only [List.nil_append, List.cons.injEq] at h2
          rw [← h2.1] at herr
          simp [finishEvent, Event.err] at herr
        · simp only [List.cons_append, List.nil_append, List.cons.injEq] at h2
          rw [← h2.2.1] at hphase
          simp [getEvent, Event.method] at hphase
        · simp at h2

/-- Scenario of C4: the first transfer of a 2500-byte upload fails with "boom". -/
theorem Upload_fail_fast_witness :
    ([] : List (Event Unit)) = [] ∧
      ((VideoService.logged ⟨scriptedServer none⟩).Upload sampleOutside 5
        ([(⟨"s", "v", 0, 1000⟩, none), (⟨"s", "v", 0, 1000⟩, some "boom")], [])
        "1" "t" 2500 ()).2 = some (none, some "boom") :=
  Upload_fail_fast sampleOutside ⟨scriptedServer none⟩ 5
    [(⟨"s", "v", 0, 1000⟩, none), (⟨"s", "v", 0, 1000⟩, some "boom")] "1" "t" 2500 ()
    [startEvent sampleOutside "1" 2500 ⟨"s", "v", 0, 1000⟩ none] []
    (transferEvent (uploadURL sampleOutside "1") "t" () ⟨"s", "v", 0, 1000⟩ 2500
      ⟨"s", "v", 0, 1000⟩ (some "boom"))
    "boom" (by decide) (by decide) rfl

theorem rounds_methods {ρ : Type} {url title : String} {r : ρ} {res : uploadVideoResponse}
    {size : Int} {evs : List (Event ρ)} {fin : Outcome}
    (h : Rounds url title r res size evs fin) :
    evs.map Event.method = List.replicate (chunkSizes evs).length .transfer := by
  induction h with
  | stop res size h => rfl
  | pause res size h => rfl
  | fail res size out err h => rfl
  | step res size out evs fin h tail ih =>
    rw [chunkSizes_transferEvent]
    simp [List.replicate_succ, ih, transferEvent, Event.method]

/-- Under a constant window `w` the chunks of a completed loop are a number of
full windows followed by the rest, if any. -/
theorem rounds_constant {ρ : Type} {url title : String} {r : ρ} {res : uploadVideoResponse}
    {size : Int} {evs : List (Event ρ)} {fin : Outcome} (w : Int) (hw : 0 < w)
    (h : Rounds url title r res size evs fin) :
    ∀ res1 size1, fin = .done res1 size1 → sub64 res.EndOffset res.StartOffset = w →
      (∀ ev ∈ evs, grantsWindow w ev = true) → 0 ≤ size → InInt64 size →
      ∃ (k : Nat) (t : Int), size = k * w + t ∧ 0 ≤ t ∧ t < w ∧
        chunkSizes evs = List.replicate k w ++ (if t = 0 then [] else [t]) := by
  induction h with
  | stop res size h =>
    intro res1 size1 _ _ _ h0 _
    exact ⟨0, 0, by omega, le_refl _, hw, by simp [chunkSizes]⟩
  | pause res size h => intro res1 size1 hfin; cases hfin
  | fail res size out err h => intro res1 size1 hfin; cases hfin
  | step res size out evs fin h tail ih =>
    intro res1 size1 hfin hwin hgr h0 h64
    have hout : sub64 out.EndOffset out.StartOffset = w := by
      have := hgr _ (List.mem_cons_self _ _)
      simpa [transferEvent, grantsWindow] using this
    have hs : sub64 res.EndOffset res.StartOffset = w := hwin
    have hle := chunkOf_le_size res size
    have hsub : sub64 size (chunkOf res size) = size - chunkOf res size := by
      apply wrap64_eq
      unfold chunkOf at hle ⊢
      rw [hs] at hle ⊢
      unfold InInt64 at h64 ⊢
      split <;> omega
    rw [hsub] at ih
    rw [chunkSizes_transferEvent]
    by_cases hc : w > size
    · have hN : chunkOf res size = size := by unfold chunkOf; rw [hs]; simp [hc]
      rw [hN] at ih ⊢
      obtain ⟨k, t, h1, h2, h3, h4⟩ := ih res1 size1 hfin hout
        (fun ev hev => hgr ev (List.mem_cons_of_mem _ hev)) (by omega)
        (by unfold InInt64 at h64 ⊢; omega)
      have hk : k = 0 := by
        rcases Nat.eq_zero_or_pos k with hk | hk
        · exact hk
        · have : (1 : Int) ≤ (k : Int) := by exact_mod_cast hk
          nlinarith
      subst hk
      have ht : t = 0 := by simp at h1; omega
      subst ht
      refine ⟨0, size, by simp, by omega, by omega, ?_⟩
      have hne : ¬ size = 0 := by omega
      simp [h4, hne]
    · have hN : chunkOf res size = w := by unfold chunkOf; rw [hs]; simp [hc]
      rw [hN] at ih ⊢
      obtain ⟨k, t, h1, h2, h3, h4⟩ := ih res1 size1 hfin hout
        (fun ev hev => hgr ev (List.mem_cons_of_mem _ hev)) (by omega)
        (by unfold InInt64 at h64 ⊢; omega)
      refine ⟨k + 1, t, by push_cast; linarith, h2, h3, ?_⟩
      simp [h4, List.replicate_succ]

/-- Under a constant window `w` a loop that still runs has sent only full
windows and has bytes left. -/
theorem rounds_running {ρ : Type} {url title : String} {r : ρ} {res : uploadVideoResponse}
    {size : Int} {evs : List (Event ρ)} {fin : Outcome} (w : Int) (hw : 0 < w)
    (h : Rounds url title r res size evs fin) :
    fin = .running → sub64 res.EndOffset res.StartOffset = w →
      (∀ ev ∈ evs, grantsWindow w ev = true) → 0 ≤ size → InInt64 size →
      (evs.length : Int) * w < size := by
  induction h with
  | stop res size h => intro hfin; cases hfin
  | pause res size h => intro _ _ _ _ _; simpa using h
  | fail res size out err h => intro hfin; cases hfin
  | step res size out evs fin h tail ih =>
    intro hfin hwin hgr h0 h64
    have hout : sub64 out.EndOffset out.StartOffset = w := by
      have := hgr _ (List.mem_cons_self _ _)
      simpa [transferEvent, grantsWindow] using this
    have hs : sub64 res.EndOffset res.StartOffset = w := hwin
    have hle := chunkOf_le_size res size
    have hsub : sub64 size (chunkOf res size) = size - chunkOf res size := by
      apply wrap64_eq
      unfold chunkOf at hle ⊢
      rw [hs] at hle ⊢
      unfold InInt64 at h64 ⊢
      split <;> omega
    rw [hsub] at ih
    have hlen : (0 : Int) ≤ (evs.length : Int) * w :=
      mul_nonneg (Int.ofNat_nonneg _) (le_of_lt hw)
    by_cases hc : w > size
    · have hN : chunkOf res size = size := by unfold chunkOf; rw [hs]; simp [hc]
      rw [hN] at ih
      have := ih hfin hout (fun ev hev => hgr ev (List.mem_cons_of_mem _ hev)) (by omega)
        (by unfold InInt64 at h64 ⊢; omega)
      omega
    · have hN : chunkOf res size = w := by unfold chunkOf; rw [hs]; simp [hc]
      rw [hN] at ih
      have := ih hfin hout (fun ev hev => hgr ev (List.mem_cons_of_mem _ hev)) (by omega)
        (by unfold InInt64 at h64 ⊢; omega)
      simp only [List.length_cons]
      push_cast
      linarith

/-- A loop that ran out of fuel has issued one transfer per unit of fuel. -/
theorem loop_running_length {σ ρ : Type} (vs : VideoService σ ρ) (url title : String) (r : ρ)
    (fuel : Nat) (s : σ) (log : List (Event ρ)) (res : uploadVideoResponse) (size : Int)
    (hrun : (Upload.loop vs.logged url title r fuel (s, log) res size).outcome = .running) :
    (Upload.loop vs.logged url title r fuel (s, log) res size).world.2.length
      = log.length + fuel := by
  induction fuel generalizing s log res size with
  | zero =>
    by_cases h : size > 0
    · simp [Upload.loop, h, Upload.LoopExit.world]
    · simp [Upload.loop, h, Upload.LoopExit.outcome] at hrun
  | succ fuel ih =>
    by_cases h : size > 0
    · rcases hcall : vs.c.UploadFile s url title (io.LimitReader r (chunkOf res size))
        (transferParams res) res with ⟨s1, out, err⟩
      have hl : vs.logged.c.UploadFile (s, log) url title (io.LimitReader r (chunkOf res size))
          (transferParams res) res =
          ((s1, log ++ [transferEvent url title r res size out err]), out, err) := by
        rw [show vs.logged.c = vs.c.logged from rfl, logged_UploadFile, hcall]
        rfl
      rw [loop_succ vs.logged url title r fuel (s, log) res size h _ _ _ hl] at hrun ⊢
      cases err with
      | some e => simp [Upload.LoopExit.outcome] at hrun
      | none =>
        simp only at hrun ⊢
        rw [ih _ _ _ _ hrun]
        simp
        omega
    · rw [loop_of_not_pos _ _ _ _ _ _ _ _ h] at hrun
      simp [Upload.LoopExit.outcome] at hrun

/-- A call of `Upload` that has not returned within the fuel has issued the
start request and one transfer per unit of fuel. -/
theorem upload_running_length {σ ρ : Type} (o : Outside) (vs : VideoService σ ρ) (fuel : Nat)
    (s : σ) (act title : String) (size : Int) (r : ρ)
    (hrun : (vs.logged.Upload o fuel (s, []) act title size r).2 = none) :
    (vs.logged.Upload o fuel (s, []) act title size r).1.2.length = fuel + 1 := by
  rcases upload_cases o vs.logged fuel (s, []) act title size r with
    ⟨s1, out, e, hs, hu⟩ | ⟨s1, out0, hs, hrest⟩
  · rw [hu] at hrun; simp at hrun
  · rw [show vs.logged.c = vs.c.logged from rfl, logged_PostJSONStart] at hs
    simp only [Prod.mk.injEq] at hs
    obtain ⟨h3, _, _⟩ := hs
    rcases hrest with ⟨s2, hl, hu⟩ | ⟨s2, e, hl, hu⟩ | ⟨s2, res, size1, hl, hfin⟩
    · rw [hu]
      rw [← h3] at hl
      have := loop_running_length vs (uploadURL o act) title r fuel _ _ out0 size
        (by rw [hl]; rfl)
      rw [hl] at this
      simp only [Upload.LoopExit.world] at this
      rw [this]
      simp
      omega
    · rw [hu] at hrun; simp at hrun
    · rcases hfin with ⟨s3, fout, e, hf, hu⟩ | ⟨s3, fout, hf, hu⟩
      · rw [hu] at hrun; simp at hrun
      · rw [hu] at hrun; simp at hrun

theorem ceilDiv_eq (n w : Int) (k : Nat) (t : Int) (hw : 0 < w) (hn : n = k * w + t)
    (h0 : 0 ≤ t) (ht : t < w) : ceilDiv n w = k + (if t = 0 then 0 else 1) := by
  unfold ceilDiv
  have hwne : w ≠ 0 := by omega
  by_cases h : t = 0
  · subst h
    have h1 : n + w - 1 = (w - 1) + w * k := by rw [hn]; ring
    rw [h1, Int.add_mul_ediv_left _ _ hwne, Int.ediv_eq_zero_of_lt (by omega) (by omega)]
    simp
  · have h1 : n + w - 1 = (t - 1) + w * (k + 1) := by rw [hn]; ring
    rw [h1, Int.add_mul_ediv_left _ _ hwne, Int.ediv_eq_zero_of_lt (by omega) (by omega)]
    simp [h]

/-- C5: for every total size `n ≥ 0` and every run in which the start response
and every transfer response grant the same window of `w > 0` bytes
(end_offset - start_offset, as the loop computes it, is `w`), `Upload` returns
once the fuel covers `ceil (n / w)` iterations, and a successful call issues
exactly `ceil (n / w)` transfers, each of size `w` except the last, of size
`n - w * (ceil (n / w) - 1)`, followed by exactly one finish request (and the
read of `Get`); with `n = 0` there is no transfer at all. -/
theorem Upload_constant_window {σ ρ : Type} (o : Outside) (vs : VideoService σ ρ) (fuel : Nat)
    (s : σ) (act title : String) (n w : Int) (r : ρ)
    (hn : 0 ≤ n) (hn64 : InInt64 n) (hw : 0 < w)
    (hgrant : ∀ ev ∈ (vs.logged.Upload o fuel (s, []) act title n r).1.2,
      grantsWindow w ev = true) :
    (ceilDiv n w ≤ fuel → (vs.logged.Upload o fuel (s, []) act title n r).2 ≠ none) ∧
    (∀ v, (vs.logged.Upload o fuel (s, []) act title n r).2 = some (v, none) →
      chunkSizes (vs.logged.Upload o fuel (s, []) act title n r).1.2 =
          List.replicate (ceilDiv n w - 1) w ++
            (if ceilDiv n w = 0 then [] else [n - w * ((ceilDiv n w : Int) - 1)]) ∧
      (vs.logged.Upload o fuel (s, []) act title n r).1.2.map Event.method =
          Method.start :: (List.replicate (ceilDiv n w) Method.transfer ++
            [Method.finish, Method.get])) := by
  obtain ⟨evs, hev, hrun⟩ := upload_journal o vs fuel s [] act title n r
  have hlen := upload_running_length o vs fuel s act title n r
  rw [hev] at hgrant hlen ⊢
  simp only [List.nil_append] at hgrant hlen ⊢
  generalize (vs.logged.Upload o fuel (s, []) act title n r).2 = ret at hrun hlen
  constructor
  · intro hfuel hnone
    subst hnone
    have hl := hlen rfl
    cases hrun with
    | running out0 evs h =>
      have hout : sub64 out0.EndOffset out0.StartOffset = w := by
        have := hgrant _ (List.mem_cons_self _ _)
        simpa [startEvent, grantsWindow] using this
      have hlt := rounds_running w hw h rfl hout
        (fun ev hm => hgrant ev (List.mem_cons_of_mem _ hm)) hn hn64
      simp only [List.length_cons, Nat.add_right_cancel_iff] at hl
      rw [hl] at hlt
      have hq : n ≤ ((n + w - 1) / w) * w := by
        have h1 := Int.ediv_add_emod (n + w - 1) w
        have h2 := Int.emod_lt_of_pos (n + w - 1) hw
        have h3 : w * ((n + w - 1) / w) = ((n + w - 1) / w) * w := mul_comm _ _
        omega
      have hq0 : 0 ≤ (n + w - 1) / w := Int.ediv_nonneg (by omega) (le_of_lt hw)
      have hc : ((n + w - 1) / w) ≤ (fuel : Int) := by
        unfold ceilDiv at hfuel
        omega
      have := mul_le_mul_of_nonneg_right hc (le_of_lt hw)
      omega
  · intro v hret
    subst hret
    generalize hr : some (v, (none : Option Error)) = ret at hrun
    cases hrun with
    | startFailed out e => simp at hr
    | running out0 evs h => simp at hr
    | transferFailed out0 evs e h => simp at hr
    | finishFailed out0 evs res size1 fout e h => simp at hr
    | finished out0 evs res size1 fout gout gerr h =>
      have hout : sub64 out0.EndOffset out0.StartOffset = w := by
        have := hgrant _ (List.mem_cons_self _ _)
        simpa [startEvent, grantsWindow] using this
      obtain ⟨k, t, h1, h2, h3, h4⟩ := rounds_constant w hw h res size1 rfl hout
        (fun ev hm => hgrant ev (List.mem_cons_of_mem _ (List.mem_append_left _ hm))) hn hn64
      have hc := ceilDiv_eq n w k t hw h1 h2 h3
      have hcs : chunkSizes (startEvent o act n out0 none ::
          (evs ++ [finishEvent o act title res fout none, getEvent o res.VideoID gout gerr]))
          = chunkSizes evs := by
        simp [startEvent, finishEvent, getEvent, chunkSizes, chunkSizes_append]
      have hlen2 : (chunkSizes evs).length = ceilDiv n w := by
        rw [h4, hc]
        by_cases ht : t = 0 <;> simp [ht]
      constructor
      · rw [hcs, h4, hc]
        by_cases ht : t = 0
        · subst ht
          cases k with
          | zero => simp
          | succ k =>
            have : n - w * (k : Int) = w := by rw [h1]; push_cast; ring
            simp [List.replicate_succ', this]
        · have : n - w * (k : Int) = t := by rw [h1]; ring
          simp [ht, this]
      · simp only [List.map_cons, List.map_append, rounds_methods h, hlen2]
        simp [startEvent, finishEvent, getEvent, Event.method]

/-- Scenarios of C5: 2500 bytes under a 1000-byte window are sent as chunks
of 1000, 1000 and 500 bytes followed by one finish request, an empty upload
goes from start straight to finish, and the window [-5, 995) is a 1000-byte
window as well. -/
theorem Upload_constant_window_witness :
    (chunkSizes ((VideoService.logged ⟨constantServer ⟨"s", "v", 0, 1000⟩ true none⟩).Upload
        sampleOutside 3 ((), []) "1" "t" 2500 ()).1.2 = [1000, 1000, 500] ∧
      ((VideoService.logged ⟨constantServer ⟨"s", "v", 0, 1000⟩ true none⟩).Upload
        sampleOutside 3 ((), []) "1" "t" 2500 ()).1.2.map Event.method =
        [.start, .transfer, .transfer, .transfer, .finish, .get]) ∧
    (chunkSizes ((VideoService.logged ⟨constantServer ⟨"s", "v", 0, 1000⟩ true none⟩).Upload
        sampleOutside 0 ((), []) "1" "t" 0 ()).1.2 = [] ∧
      ((VideoService.logged ⟨constantServer ⟨"s", "v", 0, 1000⟩ true none⟩).Upload
        sampleOutside 0 ((), []) "1" "t" 0 ()).1.2.map Event.method = [.start, .finish, .get]) ∧
    (chunkSizes ((VideoService.logged ⟨constantServer ⟨"s", "v", -5, 995⟩ true none⟩).Upload
        sampleOutside 3 ((), []) "1" "t" 2500 ()).1.2 = [1000, 1000, 500] ∧
      ((VideoService.logged ⟨constantServer ⟨"s", "v", -5, 995⟩ true none⟩).Upload
        sampleOutside 3 ((), []) "1" "t" 2500 ()).1.2.map Event.method =
        [.start, .transfer, .transfer, .transfer, .finish, .get]) :=
  ⟨(Upload_constant_window sampleOutside ⟨constantServer ⟨"s", "v", 0, 1000⟩ true none⟩ 3 ()
      "1" "t" 2500 1000 () (by decide) (by decide) (by decide) (by decide)).2
      (some { (default : Video) with ID := "v20.0/v" }) (by rfl),
   (Upload_constant_window sampleOutside ⟨constantServer ⟨"s", "v", 0, 1000⟩ true none⟩ 0 ()
      "1" "t" 0 1000 () (by decide) (by decide) (by decide) (by decide)).2
      (some { (default : Video) with ID := "v20.0/v" }) (by rfl),
   (Upload_constant_window sampleOutside ⟨constantServer ⟨"s", "v", -5, 995⟩ true none⟩ 3 ()
      "1" "t" 2500 1000 () (by decide) (by decide) (by decide) (by decide)).2
      (some { (default : Video) with ID := "v20.0/v" }) (by rfl)⟩

theorem responses_append {ρ : Type} (a b : List (Event ρ)) :
    responses (a ++ b) = responses a ++ responses b := by
  induction a with
  | nil => rfl
  | cons ev a ih => cases ev <;> simp [responses, ih]

theorem getRequests_append {ρ : Type} (a b : List (Event ρ)) :
    getRequests (a ++ b) = getRequests a ++ getRequests b := by
  induction a with
  | nil => rfl
  | cons ev a ih => cases ev <;> simp [getRequests, ih]

/-- A loop left by a failed transfer has that transfer in its journal. -/
theorem rounds_failed_mem {ρ : Type} {url title : String} {r : ρ} {res : uploadVideoResponse}
    {size : Int} {evs : List (Event ρ)} {fin : Outcome}
    (h : Rounds url title r res size evs fin) :
    ∀ e, fin = .failed e → ∃ ev ∈ evs, ev.method = .transfer ∧ ev.err = some e := by
  induction h with
  | stop res size h => intro e hfin; cases hfin
  | pause res size h => intro e hfin; cases hfin
  | fail res size out err h =>
    intro e hfin
    cases hfin
    exact ⟨_, List.mem_cons_self _ _, rfl, rfl⟩
  | step res size out evs fin h tail ih =>
    intro e hfin
    obtain ⟨ev, hm, h1, h2⟩ := ih e hfin
    exact ⟨ev, List.mem_cons_of_mem _ hm, h1, h2⟩

/-- The loop variable `res` of a completed loop is the last response written,
the initial one when there was no round; the loop makes no read. -/
theorem rounds_last {ρ : Type} {url title : String} {r : ρ} {res : uploadVideoResponse}
    {size : Int} {evs : List (Event ρ)} {fin : Outcome}
    (h : Rounds url title r res size evs fin) :
    getRequests evs = [] ∧
      ∀ res1 size1, fin = .done res1 size1 → (res :: responses evs).getLast? = some res1 := by
  induction h with
  | stop res size h =>
    refine ⟨rfl, ?_⟩
    intro res1 size1 hfin
    cases hfin
    rfl
  | pause res size h => exact ⟨rfl, fun res1 size1 hfin => by cases hfin⟩
  | fail res size out err h => exact ⟨rfl, fun res1 size1 hfin => by cases hfin⟩
  | step res size out evs fin h tail ih =>
    refine ⟨by simpa [transferEvent, getRequests] using ih.1, ?_⟩
    intro res1 size1 hfin
    have := ih.2 res1 size1 hfin
    simpa [transferEvent, responses, List.getLast?_cons_cons] using this

/-- C6 as stated fails: when the start response names video "v1" and the
response to the only transfer names video "v2", `Upload` re-fetches "v2" and
returns the video read for "v2". -/
theorem Upload_refetch_counterexample :
    (responses ((VideoService.logged ⟨scriptedServer none⟩).Upload sampleOutside 5
        ([(⟨"s", "v1", 0, 10⟩, none), (⟨"s", "v2", 10, 10⟩, none)], []) "1" "t" 10 ()).1.2).head?
        = some ⟨"s", "v1", 0, 10⟩ ∧
    getRequests ((VideoService.logged ⟨scriptedServer none⟩).Upload sampleOutside 5
        ([(⟨"s", "v1", 0, 10⟩, none), (⟨"s", "v2", 10, 10⟩, none)], []) "1" "t" 10 ()).1.2
        = [getURL sampleOutside "v2"] ∧
    getURL sampleOutside "v2" ≠ getURL sampleOutside "v1" ∧
    ((VideoService.logged ⟨scriptedServer none⟩).Upload sampleOutside 5
        ([(⟨"s", "v1", 0, 10⟩, none), (⟨"s", "v2", 10, 10⟩, none)], []) "1" "t" 10 ()).2
        = some (some { (default : Video) with ID := getURL sampleOutside "v2" }, none) := by
  decide

/-- C6, amended: for every call of `Upload` that returns and whose start,
transfer and finish requests all succeed, the id re-fetched through `Get` is
the video id held by `res` after the last transfer, that is the video id of the
most recent start or transfer response (the id of the start response whenever
no transfer response carries another one); `Get` is called exactly once, and
what `Upload` returns is exactly what that call of `Get` returns. -/
theorem Upload_refetch {σ ρ : Type} (o : Outside) (vs : VideoService σ ρ) (fuel : Nat) (s : σ)
    (act title : String) (size : Int) (r : ρ)
    (hret : (vs.logged.Upload o fuel (s, []) act title size r).2 ≠ none)
    (hok : ∀ ev ∈ (vs.logged.Upload o fuel (s, []) act title size r).1.2,
      ev.method ≠ .get → ev.err = none) :
    ∃ st res,
      (responses (vs.logged.Upload o fuel (s, []) act title size r).1.2).getLast? = some res ∧
      getRequests (vs.logged.Upload o fuel (s, []) act title size r).1.2
        = [getURL o res.VideoID] ∧
      vs.logged.Upload o fuel (s, []) act title size r
        = ((vs.logged.Get o st res.VideoID).1, some (vs.logged.Get o st res.VideoID).2) ∧
      (∀ res0, (responses (vs.logged.Upload o fuel (s, []) act title size r).1.2).head?
          = some res0 →
        (∀ x ∈ responses (vs.logged.Upload o fuel (s, []) act title size r).1.2,
          x.VideoID = res0.VideoID) → res.VideoID = res0.VideoID) := by
  rcases upload_cases o vs.logged fuel (s, []) act title size r with
    ⟨s1, out, e, hs, hu⟩ | ⟨s1, out0, hs, hrest⟩
  · exfalso
    rw [show vs.logged.c = vs.c.logged from rfl, logged_PostJSONStart] at hs
    simp only [Prod.mk.injEq] at hs
    obtain ⟨h3, h4, h5⟩ := hs
    rw [hu, ← h3] at hok
    have := hok _ (List.mem_append_right _ (List.mem_singleton_self _))
      (by simp [Event.method])
    simp [Event.err, h5] at this
  · rw [show vs.logged.c = vs.c.logged from rfl, logged_PostJSONStart] at hs
    simp only [Prod.mk.injEq, List.nil_append] at hs
    obtain ⟨h3, h4, h5⟩ := hs
    obtain ⟨s1a, s1b⟩ := s1
    simp only [Prod.mk.injEq] at h3
    obtain ⟨h3a, h3b⟩ := h3
    obtain ⟨evs, hev, hr⟩ := loop_journal vs (uploadURL o act) title r fuel s1a s1b out0 size
    rcases hrest with ⟨s2, hl, hu⟩ | ⟨s2, e, hl, hu⟩ | ⟨s2, res, size1, hl, hfin⟩
    · rw [hu] at hret
      exact (hret rfl).elim
    · exfalso
      rw [hl] at hev hr
      simp only [Upload.LoopExit.world, Upload.LoopExit.outcome] at hev hr
      obtain ⟨ev, hm, h1, h2⟩ := rounds_failed_mem hr e rfl
      rw [hu] at hok
      simp only at hok
      rw [hev] at hok
      have := hok ev (List.mem_append_right _ hm) (by rw [h1]; decide)
      rw [h2] at this
      simp at this
    · rw [hl] at hev hr
      simp only [Upload.LoopExit.world, Upload.LoopExit.outcome] at hev hr
      rcases hfin with ⟨s3, fout, e, hf, hu⟩ | ⟨s3, fout, hf, hu⟩
      · exfalso
        rw [show vs.logged.c = vs.c.logged from rfl, logged_PostJSONEnd] at hf
        simp only [Prod.mk.injEq] at hf
        obtain ⟨h6, h7, h8⟩ := hf
        rw [hu, ← h6] at hok
        have := hok _ (List.mem_append_right _ (List.mem_singleton_self _))
          (by simp [Event.method])
        simp [Event.err, h8] at this
      · refine ⟨s3, res, ?_, ?_, hu, ?_⟩
        all_goals
          rw [show vs.logged.c = vs.c.logged from rfl, logged_PostJSONEnd] at hf
          simp only [Prod.mk.injEq] at hf
          obtain ⟨h6, h7, h8⟩ := hf
          obtain ⟨s3a, s3b⟩ := s3
          simp only [Prod.mk.injEq] at h6
          obtain ⟨h6a, h6b⟩ := h6
          have hJ : (vs.logged.Upload o fuel (s, []) act title size r).1.2 =
              s1b ++ evs ++ [Event.PostJSONEnd (uploadURL o act)
                ⟨"finish", res.UploadSessionID, title⟩ fout none] ++
              [getEvent o res.VideoID (vs.c.GetJSON s3a (getURL o res.VideoID) default).2.1
                (vs.c.GetJSON s3a (getURL o res.VideoID) default).2.2] := by
            rw [hu, get_journal, ← h6b, hev, h7, h8]
          have hresp : responses (vs.logged.Upload o fuel (s, []) act title size r).1.2
              = out0 :: responses evs := by
            rw [hJ, ← h3b, h4]
            simp [responses_append, responses, getEvent]
          have hlast := (rounds_last hr).2 res size1 rfl
        · rw [hresp]
          exact hlast
        · rw [hJ, ← h3b]
          simp [getRequests_append, getRequests, getEvent, (rounds_last hr).1]
        · intro res0 hhead hall
          rw [hresp] at hall
          exact hall res (List.mem_of_getLast?_eq_some hlast)

/-- Scenario of C6: three transfers whose responses all name the video "v". -/
theorem Upload_refetch_witness :
    ∃ st res,
      (responses ((VideoService.logged ⟨constantServer ⟨"s", "v", 0, 1000⟩ true none⟩).Upload
        sampleOutside 3 ((), []) "1" "t" 2500 ()).1.2).getLast? = some res ∧
      getRequests ((VideoService.logged ⟨constantServer ⟨"s", "v", 0, 1000⟩ true none⟩).Upload
        sampleOutside 3 ((), []) "1" "t" 2500 ()).1.2 = [getURL sampleOutside res.VideoID] ∧
      (VideoService.logged ⟨constantServer ⟨"s", "v", 0, 1000⟩ true none⟩).Upload
        sampleOutside 3 ((), []) "1" "t" 2500 ()
        = (((VideoService.logged ⟨constantServer ⟨"s", "v", 0, 1000⟩ true none⟩).Get
              sampleOutside st res.VideoID).1,
           some ((VideoService.logged ⟨constantServer ⟨"s", "v", 0, 1000⟩ true none⟩).Get
              sampleOutside st res.VideoID).2) ∧
      (∀ res0,
        (responses ((VideoService.logged ⟨constantServer ⟨"s", "v", 0, 1000⟩ true none⟩).Upload
          sampleOutside 3 ((), []) "1" "t" 2500 ()).1.2).head? = some res0 →
        (∀ x ∈ responses ((VideoService.logged
            ⟨constantServer ⟨"s", "v", 0, 1000⟩ true none⟩).Upload
            sampleOutside 3 ((), []) "1" "t" 2500 ()).1.2, x.VideoID = res0.VideoID) →
        res.VideoID = res0.VideoID) :=
  Upload_refetch sampleOutside ⟨constantServer ⟨"s", "v", 0, 1000⟩ true none⟩ 3 () "1" "t" 2500 ()
    (by decide) (by decide)

/-- When every window the loop reads is strictly positive, so is every chunk. -/
theorem rounds_pos_chunks {ρ : Type} {url title : String} {r : ρ} {res : uploadVideoResponse}
    {size : Int} {evs : List (Event ρ)} {fin : Outcome}
    (h : Rounds url title r res size evs fin) :
    (∀ w ∈ windowsRead res evs, 0 < w) → ∀ N ∈ chunkSizes evs, 0 < N := by
  induction h with
  | stop res size h => intro _ N hN; simp [chunkSizes] at hN
  | pause res size h => intro _ N hN; simp [chunkSizes] at hN
  | fail res size out err h =>
    intro hpos N hN
    have hres : 0 < sub64 res.EndOffset res.StartOffset :=
      hpos _ (by simp [transferEvent, windowsRead])
    rw [chunkSizes_transferEvent] at hN
    simp only [chunkSizes, List.mem_singleton] at hN
    rw [hN, chunkOf_eq_min]
    exact lt_min hres h
  | step res size out evs fin h tail ih =>
    intro hpos N hN
    have hres : 0 < sub64 res.EndOffset res.StartOffset :=
      hpos _ (by simp [transferEvent, windowsRead])
    rw [chunkSizes_transferEvent] at hN
    rcases List.mem_cons.mp hN with h1 | h1
    · rw [h1, chunkOf_eq_min]
      exact lt_min hres h
    · exact ih (fun w hm => hpos w (by simp [transferEvent, windowsRead, hm])) N h1

/-- The loop guard: every round starts with a strictly positive value of the
counter `size`. -/
theorem rounds_guard {ρ : Type} {url title : String} {r : ρ} {res : uploadVideoResponse}
    {size : Int} {evs : List (Event ρ)} {fin : Outcome}
    (h : Rounds url title r res size evs fin) :
    ∀ pre N post, chunkSizes evs = pre ++ N :: post → 0 < remainingAfter size pre := by
  induction h with
  | stop res size h => intro pre N post hs; simp [chunkSizes] at hs
  | pause res size h => intro pre N post hs; simp [chunkSizes] at hs
  | fail res size out err h =>
    intro pre N post hs
    rw [chunkSizes_transferEvent] at hs
    cases pre with
    | nil => simpa [remainingAfter] using h
    | cons p pre => simp [chunkSizes] at hs
  | step res size out evs fin h tail ih =>
    intro pre N post hs
    rw [chunkSizes_transferEvent] at hs
    cases pre with
    | nil => simpa [remainingAfter] using h
    | cons p pre =>
      simp only [List.cons_append, List.cons.injEq] at hs
      have := ih pre N post hs.2
      rw [hs.1] at this
      simpa [remainingAfter] using this

/-- With no negative chunk, a loop that still runs has sent fewer bytes than
the total, and so had every earlier iteration when it started. -/
theorem rounds_remaining {ρ : Type} {url title : String} {r : ρ} {res : uploadVideoResponse}
    {size : Int} {evs : List (Event ρ)} {fin : Outcome}
    (h : Rounds url title r res size evs fin) :
    0 ≤ size → InInt64 size → (∀ N ∈ chunkSizes evs, 0 ≤ N) →
      (fin = .running → (chunkSizes evs).sum < size) ∧
      (∀ pre N post, chunkSizes evs = pre ++ N :: post → pre.sum < size) := by
  induction h with
  | stop res size h =>
    intro _ _ _
    exact ⟨fun hf => (by cases hf), fun pre N post hs => (by simp [chunkSizes] at hs)⟩
  | pause res size h =>
    intro _ _ _
    exact ⟨fun _ => (by simpa [chunkSizes] using h),
      fun pre N post hs => (by simp [chunkSizes] at hs)⟩
  | fail res size out err h =>
    intro _ _ _
    refine ⟨fun hf => (by cases hf), fun pre N post hs => ?_⟩
    rw [chunkSizes_transferEvent] at hs
    cases pre with
    | nil => simpa using h
    | cons p pre => simp [chunkSizes] at hs
  | step res size out evs fin h tail ih =>
    intro h0 h64 hN
    rw [chunkSizes_transferEvent] at hN ⊢
    have hc : 0 ≤ chunkOf res size := hN _ (List.mem_cons_self _ _)
    have hle := chunkOf_le_size res size
    have hsub : sub64 size (chunkOf res size) = size - chunkOf res size := by
      apply wrap64_eq
      unfold InInt64 at h64 ⊢
      omega
    rw [hsub] at ih
    have ih2 := ih (by omega) (by unfold InInt64 at h64 ⊢; omega)
      (fun N hmem => hN N (List.mem_cons_of_mem _ hmem))
    refine ⟨fun hf => ?_, fun pre N post hs => ?_⟩
    · have := ih2.1 hf
      simp only [List.sum_cons]
      omega
    · cases pre with
      | nil => simpa using h
      | cons p pre =>
        simp only [List.cons_append, List.cons.injEq] at hs
        have := ih2.2 pre N post hs.2
        simp only [List.sum_cons]
        omega

theorem sum_ge_length (l : List Int) (h : ∀ N ∈ l, 0 < N) : (l.length : Int) ≤ l.sum := by
  induction l with
  | nil => simp
  | cons a l ih =>
    have h1 := h a (List.mem_cons_self _ _)
    have h2 := ih (fun N hm => h N (List.mem_cons_of_mem _ hm))
    simp only [List.length_cons, List.sum_cons]
    push_cast
    omega

theorem chunkSizes_length_rounds {ρ : Type} {url title : String} {r : ρ}
    {res : uploadVideoResponse} {size : Int} {evs : List (Event ρ)} {fin : Outcome}
    (h : Rounds url title r res size evs fin) : (chunkSizes evs).length = evs.length := by
  have := congrArg List.length (rounds_methods h)
  simpa using this.symm

/-- The loop never leaves a server that grants an empty window while a byte
remains. -/
theorem loop_zero_window (url title : String) (fuel : Nat) :
    Upload.loop ⟨constantServer ⟨"s", "v", 0, 0⟩ true none⟩ url title () fuel ()
      ⟨"s", "v", 0, 0⟩ 1 = .running () := by
  induction fuel with
  | zero => rfl
  | succ fuel ih =>
    rw [loop_succ _ url title () fuel () ⟨"s", "v", 0, 0⟩ 1 (by decide) () ⟨"s", "v", 0, 0⟩ none rfl]
    exact ih

/-- C9 as stated fails: against a server whose every response grants the empty
window [0, 0), the transfer loop of a 1-byte upload never terminates: with no
amount of fuel does the loop stop or `Upload` return; and when the start
response grants the window [1, 0) to an upload of 9223372036854775807 bytes, the
loop is left after one iteration with a remaining count of
-9223372036854775808, not 0. -/
theorem Upload_loop_terminates_counterexample :
    (¬ ∃ fuel, (Upload.loop ⟨constantServer ⟨"s", "v", 0, 0⟩ true none⟩
        (uploadURL sampleOutside "1") "t" () fuel () ⟨"s", "v", 0, 0⟩ 1).outcome ≠ .running) ∧
    (¬ ∃ fuel, (VideoService.Upload sampleOutside ⟨constantServer ⟨"s", "v", 0, 0⟩ true none⟩
        fuel () "1" "t" 1 ()).2 ≠ none) ∧
    (Upload.loop ⟨constantServer ⟨"s", "v", 1, 0⟩ true none⟩
        (uploadURL sampleOutside "1") "t" () 1 () ⟨"s", "v", 1, 0⟩ 9223372036854775807).outcome
      = .done ⟨"s", "v", 1, 0⟩ (-9223372036854775808) := by
  refine ⟨?_, ?_, by decide⟩
  · rintro ⟨fuel, h⟩
    rw [loop_zero_window] at h
    exact h rfl
  · rintro ⟨fuel, h⟩
    apply h
    have := loop_zero_window (uploadURL sampleOutside "1") "t" fuel
    unfold uploadURL at this
    simp [VideoService.Upload, constantServer] at this ⊢
    rw [this]

/-- C9, amended: in every run of the transfer loop, every iteration starts
with a strictly positive value of the counter of remaining bytes; and for every
total size that is not negative and every run in which each window the loop
reads (end_offset - start_offset, as the loop computes it, of the response
that is the most recent one when a transfer is prepared) is strictly positive,
the loop terminates within `size` iterations, it is left by its condition
exactly with a remaining count of 0, and before every iteration the bytes
requested so far are fewer than the total.  The answer to the last transfer
is never read and is not constrained. -/
theorem Upload_loop_terminates {σ ρ : Type} (vs : VideoService σ ρ) (url title : String) (r : ρ)
    (fuel : Nat) (s : σ) (res : uploadVideoResponse) (size : Int) :
    (∀ pre N post,
      chunkSizes (Upload.loop vs.logged url title r fuel (s, []) res size).world.2
        = pre ++ N :: post → 0 < remainingAfter size pre) ∧
    (0 ≤ size → InInt64 size →
      (∀ w ∈ windowsRead res (Upload.loop vs.logged url title r fuel (s, []) res size).world.2,
        0 < w) →
      (size.toNat ≤ fuel →
        (Upload.loop vs.logged url title r fuel (s, []) res size).outcome ≠ .running) ∧
      (∀ res1 size1,
        (Upload.loop vs.logged url title r fuel (s, []) res size).outcome = .done res1 size1 →
        size1 = 0) ∧
      (∀ pre N post,
        chunkSizes (Upload.loop vs.logged url title r fuel (s, []) res size).world.2
          = pre ++ N :: post → 0 < size - pre.sum)) := by
  obtain ⟨evs, hev, hr⟩ := loop_journal vs url title r fuel s [] res size
  have hlen := loop_running_length vs url title r fuel s [] res size
  rw [hev] at hlen ⊢
  simp only [List.nil_append, List.length_nil, Nat.zero_add] at hlen ⊢
  refine ⟨rounds_guard hr, fun hsize h64 hpos => ?_⟩
  have hchunks := rounds_pos_chunks hr hpos
  have hnonneg : ∀ N ∈ chunkSizes evs, 0 ≤ N := fun N hN => le_of_lt (hchunks N hN)
  have hrem := rounds_remaining hr hsize h64 hnonneg
  refine ⟨?_, ?_, ?_⟩
  · intro hfuel hrun
    have h1 := hrem.1 hrun
    have h2 := sum_ge_length _ hchunks
    rw [chunkSizes_length_rounds hr, hlen hrun] at h2
    omega
  · intro res1 size1 hdone
    exact (rounds_sum hr res1 size1 hdone hsize h64 hnonneg).2
  · intro pre N post hs
    have := hrem.2 pre N post hs
    omega

/-- Scenario of C9: 10 bytes against the windows [0, 4), [4, 8), [8, 10) and,
in the answer to the last chunk, the empty window [10, 10). -/
theorem Upload_loop_terminates_witness :
    chunkSizes (Upload.loop (VideoService.logged ⟨scriptedServer none⟩) "url" "t" () 10
        ([(⟨"s", "v", 4, 8⟩, none), (⟨"s", "v", 8, 10⟩, none), (⟨"s", "v", 10, 10⟩, none)], [])
        ⟨"s", "v", 0, 4⟩ 10).world.2 = [4, 4, 2] ∧
    (Upload.loop (VideoService.logged ⟨scriptedServer none⟩) "url" "t" () 10
        ([(⟨"s", "v", 4, 8⟩, none), (⟨"s", "v", 8, 10⟩, none), (⟨"s", "v", 10, 10⟩, none)], [])
        ⟨"s", "v", 0, 4⟩ 10).outcome = .done ⟨"s", "v", 10, 10⟩ 0 ∧
    (Upload.loop (VideoService.logged ⟨scriptedServer none⟩) "url" "t" () 10
        ([(⟨"s", "v", 4, 8⟩, none), (⟨"s", "v", 8, 10⟩, none), (⟨"s", "v", 10, 10⟩, none)], [])
        ⟨"s", "v", 0, 4⟩ 10).outcome ≠ .running :=
  ⟨by decide, by decide,
   ((Upload_loop_terminates ⟨scriptedServer none⟩ "url" "t" () 10
      [(⟨"s", "v", 4, 8⟩, none), (⟨"s", "v", 8, 10⟩, none), (⟨"s", "v", 10, 10⟩, none)]
      ⟨"s", "v", 0, 4⟩ 10).2 (by decide) (by decide) (by decide)).1 (by decide)⟩

theorem loop_congr {σ ρ : Type} (vs1 vs2 : VideoService σ ρ) (url title : String) (r : ρ)
    (h : vs1.c.UploadFile = vs2.c.UploadFile) (fuel : Nat) :
    ∀ s res size, Upload.loop vs1 url title r fuel s res size
      = Upload.loop vs2 url title r fuel s res size := by
  induction fuel with
  | zero => intro s res size; rfl
  | succ fuel ih =>
    intro s res size
    simp only [Upload.loop, h, ih]

/-- Setting the `success` flag of the finish responses changes nothing that is
observed of a run. -/
theorem upload_withFinishFlag {σ ρ : Type} (o : Outside) (c : fb.Client σ ρ) (b : Bool)
    (fuel : Nat) (s : σ) (act title : String) (size : Int) (r : ρ) :
    observe ((VideoService.logged ⟨c.withFinishFlag b⟩).Upload o fuel (s, []) act title size r)
      = observe ((VideoService.logged ⟨c⟩).Upload o fuel (s, []) act title size r) := by
  have hloop := loop_congr (VideoService.logged ⟨c.withFinishFlag b⟩) (VideoService.logged ⟨c⟩)
    (uploadURL o act) title r rfl fuel
  rcases upload_cases o (VideoService.logged ⟨c⟩) fuel (s, []) act title size r with
    ⟨s1, out, e, hs, hu⟩ | ⟨s1, out0, hs, hrest⟩
  · have hs2 : (VideoService.logged ⟨c.withFinishFlag b⟩).c.PostJSONStart (s, [])
        (uploadURL o act) ⟨"start", size⟩ default = (s1, out, some e) := hs
    unfold uploadURL at hs2
    rw [hu]
    simp [VideoService.Upload, hs2]
  · have hs2 : (VideoService.logged ⟨c.withFinishFlag b⟩).c.PostJSONStart (s, [])
        (uploadURL o act) ⟨"start", size⟩ default = (s1, out0, none) := hs
    unfold uploadURL at hs2
    rcases hrest with ⟨s2, hl, hu⟩ | ⟨s2, e, hl, hu⟩ | ⟨s2, res, size1, hl, hfin⟩
    · rw [← hloop] at hl
      unfold uploadURL at hl
      rw [hu]
      simp [VideoService.Upload, hs2, hl]
    · rw [← hloop] at hl
      unfold uploadURL at hl
      rw [hu]
      simp [VideoService.Upload, hs2, hl]
    · rw [← hloop] at hl
      unfold uploadURL at hl
      have hf2 : (VideoService.logged ⟨c.withFinishFlag b⟩).c.PostJSONEnd s2
          (o.RouteString (fb.NewRoute o.Version ("/act_" ++ act ++ "/advideos")))
          ⟨"finish", res.UploadSessionID, title⟩ default =
          (((c.PostJSONEnd s2.1 (uploadURL o act) ⟨"finish", res.UploadSessionID, title⟩
              default).1,
            s2.2 ++ [Event.PostJSONEnd (uploadURL o act) ⟨"finish", res.UploadSessionID, title⟩
              ⟨b⟩ (c.PostJSONEnd s2.1 (uploadURL o act) ⟨"finish", res.UploadSessionID, title⟩
              default).2.2]),
           ⟨b⟩,
           (c.PostJSONEnd s2.1 (uploadURL o act) ⟨"finish", res.UploadSessionID, title⟩
              default).2.2) := rfl
      rcases hfin with ⟨s3, fout, e, hf, hu⟩ | ⟨s3, fout, hf, hu⟩
      · rw [show (VideoService.logged ⟨c⟩).c = c.logged from rfl, logged_PostJSONEnd] at hf
        simp only [Prod.mk.injEq] at hf
        obtain ⟨h6, h7, h8⟩ := hf
        rw [h8] at hf2
        rw [hu, ← h6]
        simp [VideoService.Upload, hs2, hl, hf2, observe, Event.eraseFlag, h8]
      · rw [show (VideoService.logged ⟨c⟩).c = c.logged from rfl, logged_PostJSONEnd] at hf
        simp only [Prod.mk.injEq] at hf
        obtain ⟨h6, h7, h8⟩ := hf
        rw [h8] at hf2
        rw [hu, ← h6]
        have hg : ∀ st id, (VideoService.logged ⟨c.withFinishFlag b⟩).Get o st id
            = (VideoService.logged ⟨c⟩).Get o st id := fun _ _ => rfl
        simp only [VideoService.Upload, hs2, hl, hf2, hg]
        rw [get_journal, get_journal]
        simp [observe, Event.eraseFlag, h8]

/-- C10: the outcome of `Upload` does not depend on the `success` flag of the
finish response: two runs against the same server that differ only in that
flag (true in one, false in the other) return the same video and error, leave
the client in the same world and make the same client calls, the read of `Get`
included; this holds for every call, so in particular for those whose finish
request returns no error. -/
theorem Upload_ignores_finish_flag {σ ρ : Type} (o : Outside) (c : fb.Client σ ρ) (fuel : Nat)
    (s : σ) (act title : String) (size : Int) (r : ρ) :
    observe ((VideoService.logged ⟨c.withFinishFlag true⟩).Upload o fuel (s, []) act title size r)
      = observe
          ((VideoService.logged ⟨c.withFinishFlag false⟩).Upload o fuel (s, []) act title size r) := by
  rw [upload_withFinishFlag, upload_withFinishFlag]

theorem decoded_append (o : Outside) (a b : List json.RawMessage) :
    decoded o (a ++ b) = decoded o a ++ decoded o b := by
  simp [decoded, List.filterMap_append]

theorem decoded_snoc_ok (o : Outside) (done : List json.RawMessage) (e : json.RawMessage)
    (v : Video) (hv : o.Unmarshal e = .ok v) : decoded o (done ++ [e]) = decoded o done ++ [v] := by
  rw [decoded_append]
  simp [decoded, hv]

theorem decoded_length (o : Outside) (l : List json.RawMessage) (h : ∀ e ∈ l, Decodes o e) :
    (decoded o l).length = l.length := by
  induction l with
  | nil => rfl
  | cons e l ih =>
    obtain ⟨v, hv⟩ := h e (List.mem_cons_self _ _)
    have := ih (fun x hx => h x (List.mem_cons_of_mem _ hx))
    simp [decoded, List.filterMap_cons, hv] at this ⊢
    exact this

theorem mem_match_except {α : Type} (x : Except Error Video) (A : Video → α) (B : Error → α)
    (t : α)
    (h : t ∈ (match x with
      | .ok v => [A v]
      | .error err => [B err])) :
    (∃ v, x = .ok v ∧ t = A v) ∨ (∃ err, x = .error err ∧ t = B err) := by
  cases x with
  | ok v => exact Or.inl ⟨v, rfl, by simpa using h⟩
  | error err => exact Or.inr ⟨err, rfl, by simpa using h⟩

/-- The six actions, read off `ReadList.next`. -/
theorem step_inv (o : Outside) (s t : ReadList.State) (h : ReadList.Step o s t) :
    (∃ e rest err, s.fetch = .pushing (e :: rest) err ∧ s.decode = .ranging ∧
      t = { s with fetch := .pushing rest err, decode := .holding e }) ∨
    (∃ e v, s.decode = .holding e ∧ o.Unmarshal e = .ok v ∧ t = { s with decode := .sending v }) ∨
    (∃ e err, s.decode = .holding e ∧ o.Unmarshal e = .error err ∧
      t = { s with decode := .returned, firstErr := ReadList.record s.firstErr (some err) }) ∨
    (∃ v, s.decode = .sending v ∧ t = { s with decode := .ranging, out := s.out ++ [v] }) ∨
    (∃ err, s.fetch = .pushing [] err ∧
      t = { s with fetch := .returned, firstErr := ReadList.record s.firstErr err }) ∨
    (s.fetch = .returned ∧ s.decode = .ranging ∧ t = { s with decode := .returned }) := by
  obtain ⟨f, d, fe, out⟩ := s
  unfold ReadList.Step ReadList.next at h
  have hold : ∀ (f1 : ReadList.FetchTask) (e1 : json.RawMessage),
      (t ∈ (match o.Unmarshal e1 with
        | .ok v => [(⟨f1, .sending v, fe, out⟩ : ReadList.State)]
        | .error err => [⟨f1, .returned, ReadList.record fe (some err), out⟩])) →
      (∃ v, o.Unmarshal e1 = .ok v ∧ t = ⟨f1, .sending v, fe, out⟩) ∨
      (∃ err, o.Unmarshal e1 = .error err ∧
        t = ⟨f1, .returned, ReadList.record fe (some err), out⟩) :=
    fun f1 e1 h1 => mem_match_except (o.Unmarshal e1) _ _ t h1
  rcases f with ⟨_ | ⟨e, rest⟩, err⟩ | _ <;> cases d <;>
    simp only [List.mem_append, List.mem_singleton, List.not_mem_nil, or_false, false_or] at h
  · exact Or.inr (Or.inr (Or.inr (Or.inr (Or.inl ⟨err, rfl, h⟩))))
  · rcases h with h | h
    · rcases hold _ _ h with ⟨v, hv, ht⟩ | ⟨er, hv, ht⟩
      · exact Or.inr (Or.inl ⟨_, v, rfl, hv, ht⟩)
      · exact Or.inr (Or.inr (Or.inl ⟨_, er, rfl, hv, ht⟩))
    · exact Or.inr (Or.inr (Or.inr (Or.inr (Or.inl ⟨err, rfl, h⟩))))
  · rcases h with h | h
    · exact Or.inr (Or.inr (Or.inr (Or.inl ⟨_, rfl, h⟩)))
    · exact Or.inr (Or.inr (Or.inr (Or.inr (Or.inl ⟨err, rfl, h⟩))))
  · exact Or.inr (Or.inr (Or.inr (Or.inr (Or.inl ⟨err, rfl, h⟩))))
  · exact Or.inl ⟨e, rest, err, rfl, rfl, h⟩
  · rcases hold _ _ h with ⟨v, hv, ht⟩ | ⟨er, hv, ht⟩
    · exact Or.inr (Or.inl ⟨_, v, rfl, hv, ht⟩)
    · exact Or.inr (Or.inr (Or.inl ⟨_, er, rfl, hv, ht⟩))
  · exact Or.inr (Or.inr (Or.inr (Or.inl ⟨_, rfl, h⟩)))
  · exact Or.inr (Or.inr (Or.inr (Or.inr (Or.inr ⟨rfl, rfl, h⟩))))
  · rcases hold _ _ h with ⟨v, hv, ht⟩ | ⟨er, hv, ht⟩
    · exact Or.inr (Or.inl ⟨_, v, rfl, hv, ht⟩)
    · exact Or.inr (Or.inr (Or.inl ⟨_, er, rfl, hv, ht⟩))
  · exact Or.inr (Or.inr (Or.inr (Or.inl ⟨_, rfl, h⟩)))

/-- Every action uses up weight: no schedule runs forever. -/
theorem step_weight (o : Outside) (s t : ReadList.State) (h : ReadList.Step o s t) :
    ReadList.weight t < ReadList.weight s := by
  obtain ⟨f, d, fe, out⟩ := s
  rcases step_inv o _ t h with ⟨e, rest, err, h1, h2, h3⟩ | ⟨e, v, h1, h2, h3⟩ |
    ⟨e, err, h1, h2, h3⟩ | ⟨v, h1, h3⟩ | ⟨err, h1, h3⟩ | ⟨h1, h2, h3⟩ <;>
    simp only at h1 h3 <;> subst h3 <;> (try simp only at h2) <;> (try subst h2) <;>
    subst h1 <;> (simp [ReadList.weight]; try omega)

/-- The shapes are closed under the actions. -/
theorem shape_step (o : Outside) (entries : List json.RawMessage) (ferr : Option Error)
    (s t : ReadList.State) (h : Shape o entries ferr s) (hst : ReadList.Step o s t) :
    Shape o entries ferr t := by
  rcases step_inv o s t hst with ⟨e, rest, err, h1, h2, h3⟩ | ⟨e, v, h1, h2, h3⟩ |
    ⟨e, err, h1, h2, h3⟩ | ⟨v, h1, h3⟩ | ⟨err, h1, h3⟩ | ⟨h1, h2, h3⟩
  · cases h <;> (try (simp at h2; done)) <;> (try (simp at h1; done))
    case ranging done pend hh hok =>
      simp only [ReadList.FetchTask.pushing.injEq] at h1
      obtain ⟨hp, he⟩ := h1
      subst hp he h3
      exact Shape.holding done e rest hh hok
  · cases h <;> (try (simp at h1; done))
    case holding done e1 pend hh hok =>
      simp only [ReadList.DecodeTask.holding.injEq] at h1
      subst h1 h3
      exact Shape.sending done e1 v pend hh hok h2
    case closedHolding done e1 hh hok =>
      simp only [ReadList.DecodeTask.holding.injEq] at h1
      subst h1 h3
      exact Shape.closedSending done e1 v hh hok h2
  · cases h <;> (try (simp at h1; done))
    case holding done e1 pend hh hok =>
      simp only [ReadList.DecodeTask.holding.injEq] at h1
      subst h1 h3
      exact Shape.failed done e1 err pend hh hok h2
    case closedHolding done e1 hh hok =>
      simp only [ReadList.DecodeTask.holding.injEq] at h1
      subst h1 h3
      exact Shape.closedFailed done e1 err hh hok h2 _ (Or.inr rfl)
  · cases h <;> (try (simp at h1; done))
    case sending done e1 v1 pend hh hok hv =>
      simp only [ReadList.DecodeTask.sending.injEq] at h1
      subst h1 h3
      simp only
      rw [← decoded_snoc_ok o done e1 v1 hv]
      refine Shape.ranging (done ++ [e1]) pend (by simpa using hh) ?_
      intro x hx
      rcases List.mem_append.mp hx with hx | hx
      · exact hok x hx
      · rw [List.mem_singleton.mp hx]; exact ⟨v1, hv⟩
    case closedSending done e1 v1 hh hok hv =>
      simp only [ReadList.DecodeTask.sending.injEq] at h1
      subst h1 h3
      simp only
      rw [← decoded_snoc_ok o done e1 v1 hv, ← hh]
      refine Shape.closedRanging ?_
      intro x hx
      rw [hh] at hx
      rcases List.mem_append.mp hx with hx | hx
      · exact hok x hx
      · rw [List.mem_singleton.mp hx]; exact ⟨v1, hv⟩
  · cases h <;> (try (simp at h1; done))
    case ranging done pend hh hok =>
      simp only [ReadList.FetchTask.pushing.injEq] at h1
      obtain ⟨hp, he⟩ := h1
      subst hp he h3
      simp only [List.append_nil] at hh
      subst hh
      exact Shape.closedRanging hok
    case holding done e1 pend hh hok =>
      simp only [ReadList.FetchTask.pushing.injEq] at h1
      obtain ⟨hp, he⟩ := h1
      subst hp he h3
      exact Shape.closedHolding done e1 hh hok
    case sending done e1 v1 pend hh hok hv =>
      simp only [ReadList.FetchTask.pushing.injEq] at h1
      obtain ⟨hp, he⟩ := h1
      subst hp he h3
      exact Shape.closedSending done e1 v1 hh hok hv
    case failed done e1 er pend hh hok hv =>
      simp only [ReadList.FetchTask.pushing.injEq] at h1
      obtain ⟨hp, he⟩ := h1
      subst hp he h3
      exact Shape.closedFailed done e1 er hh hok hv _ (Or.inl rfl)
  · cases h <;> (try (simp at h2; done)) <;> (try (simp at h1; done))
    case closedRanging hok =>
      subst h3
      exact Shape.finished hok

/-- Every state of a call has one of the shapes. -/
theorem shape_reachable (o : Outside) (entries : List json.RawMessage) (ferr : Option Error)
    (st : ReadList.State)
    (h : ReadList.Reachable o ⟨.pushing entries ferr, .ranging, none, []⟩ st) :
    Shape o entries ferr st := by
  induction h with
  | refl => exact Shape.ranging [] entries rfl (fun e he => by simp at he)
  | tail _ hstep ih => exact shape_step o entries ferr _ _ ih hstep

/-- The first-enabled scheduler follows the actions and, given fuel for the
weight of its start, stops only where no action is enabled. -/
theorem run_spec (o : Outside) (fuel : Nat) :
    ∀ st, ReadList.Reachable o st (ReadList.run o fuel st) ∧
      (ReadList.weight st ≤ fuel → ReadList.next o (ReadList.run o fuel st) = []) := by
  induction fuel with
  | zero =>
    intro st
    refine ⟨Relation.ReflTransGen.refl, fun hw => ?_⟩
    cases hn : ReadList.next o st with
    | nil => simp [ReadList.run, hn]
    | cons t l =>
      have := step_weight o st t (by unfold ReadList.Step; rw [hn]; exact List.mem_cons_self _ _)
      omega
  | succ fuel ih =>
    intro st
    cases hn : ReadList.next o st with
    | nil =>
      refine ⟨by simp [ReadList.run, hn]; exact Relation.ReflTransGen.refl, fun _ => ?_⟩
      simp [ReadList.run, hn]
    | cons t l =>
      have hstep : ReadList.Step o st t := by
        unfold ReadList.Step; rw [hn]; exact List.mem_cons_self _ _
      have hw := step_weight o st t hstep
      have := ih t
      simp only [ReadList.run, hn]
      exact ⟨Relation.ReflTransGen.head hstep this.1, fun h => this.2 (by omega)⟩

/-- A state of a shape in which the call has not returned and no entry failed
to decode has an enabled action. -/
theorem shape_progress (o : Outside) (entries : List json.RawMessage) (ferr : Option Error)
    (st : ReadList.State) (h : Shape o entries ferr st) (hdec : ∀ e ∈ entries, Decodes o e)
    (hres : ReadList.result st = none) : ReadList.next o st ≠ [] := by
  cases h with
  | ranging done pend hh hok => cases pend <;> simp [ReadList.next]
  | holding done e pend hh hok =>
    obtain ⟨v, hv⟩ := hdec e (by rw [hh]; simp)
    simp [ReadList.next, hv]
  | sending done e v pend hh hok hv => simp [ReadList.next]
  | failed done e err pend hh hok hv =>
    obtain ⟨v, hv2⟩ := hdec e (by rw [hh]; simp)
    rw [hv] at hv2
    cases hv2
  | closedRanging hok => simp [ReadList.next]
  | closedHolding done e hh hok =>
    obtain ⟨v, hv⟩ := hdec e (by rw [hh]; simp)
    simp [ReadList.next, hv]
  | closedSending done e v hh hok hv => simp [ReadList.next]
  | closedFailed done e err hh hok hv fe hfe => simp [ReadList.result] at hres
  | finished hok => simp [ReadList.result] at hres

/-- What was received from `res` is always an initial part of the decoded
entries, and all of them once the call has returned without a decoding
failure. -/
theorem shape_out (o : Outside) (entries : List json.RawMessage) (ferr : Option Error)
    (st : ReadList.State) (h : Shape o entries ferr st) (hdec : ∀ e ∈ entries, Decodes o e) :
    (∃ rest, decoded o entries = st.out ++ rest) ∧
      (∀ err, ReadList.result st = some err → st.out = decoded o entries ∧ err = ferr) := by
  cases h with
  | ranging done pend hh hok =>
    exact ⟨⟨decoded o pend, by rw [hh, decoded_append]⟩, fun err hr => by simp [ReadList.result] at hr⟩
  | holding done e pend hh hok =>
    exact ⟨⟨decoded o (e :: pend), by rw [hh, decoded_append]⟩,
      fun err hr => by simp [ReadList.result] at hr⟩
  | sending done e v pend hh hok hv =>
    exact ⟨⟨decoded o (e :: pend), by rw [hh, decoded_append]⟩,
      fun err hr => by simp [ReadList.result] at hr⟩
  | failed done e err pend hh hok hv =>
    obtain ⟨v, hv2⟩ := hdec e (by rw [hh]; simp)
    rw [hv] at hv2
    cases hv2
  | closedRanging hok =>
    exact ⟨⟨[], by simp⟩, fun err hr => by simp [ReadList.result] at hr⟩
  | closedHolding done e hh hok =>
    exact ⟨⟨decoded o [e], by rw [hh, decoded_append]⟩, fun err hr => by simp [ReadList.result] at hr⟩
  | closedSending done e v hh hok hv =>
    exact ⟨⟨decoded o [e], by rw [hh, decoded_append]⟩, fun err hr => by simp [ReadList.result] at hr⟩
  | closedFailed done e err hh hok hv fe hfe =>
    obtain ⟨v, hv2⟩ := hdec e (by rw [hh]; simp)
    rw [hv] at hv2
    cases hv2
  | finished hok =>
    refine ⟨⟨[], by simp⟩, fun err hr => ?_⟩
    simp only [ReadList.result, Option.some.injEq] at hr
    exact ⟨rfl, hr.symm⟩

/-- C7: for every sequence of raw entries emitted by the paginated read of the
client in which every entry decodes, whatever the schedule of the two
goroutines: what the output channel has received is at every moment an initial
part of the decoded entries, in emission order; when `ReadList` returns, the
channel has received exactly the decoded entries, as many as there are raw
entries, and the error returned is that of the paginated read; as long as
`ReadList` has not returned an action is enabled, every action uses up weight,
so every schedule ends with the return of `ReadList`; and the run of the
first-enabled scheduler returns so. -/
theorem ReadList_delivers_all {σ ρ : Type} (o : Outside) (vs : VideoService σ ρ) (s : σ)
    (act : String)
    (hdec : ∀ e ∈ (vs.c.ReadList s (listURL o act)).2.entries, Decodes o e) :
    (∀ st, ReadList.Reachable o (vs.ReadList o s act) st →
      ∃ rest, decoded o (vs.c.ReadList s (listURL o act)).2.entries = st.out ++ rest) ∧
    (∀ st, ReadList.Reachable o (vs.ReadList o s act) st →
      ∀ err, ReadList.result st = some err →
        st.out = decoded o (vs.c.ReadList s (listURL o act)).2.entries ∧
        st.out.length = (vs.c.ReadList s (listURL o act)).2.entries.length ∧
        err = (vs.c.ReadList s (listURL o act)).2.err) ∧
    (∀ st, ReadList.Reachable o (vs.ReadList o s act) st →
      ReadList.result st = none → ReadList.next o st ≠ []) ∧
    (∀ st t, ReadList.Step o st t → ReadList.weight t < ReadList.weight st) ∧
    (ReadList.result (ReadList.run o (ReadList.weight (vs.ReadList o s act)) (vs.ReadList o s act))
        = some (vs.c.ReadList s (listURL o act)).2.err ∧
      (ReadList.run o (ReadList.weight (vs.ReadList o s act)) (vs.ReadList o s act)).out
        = decoded o (vs.c.ReadList s (listURL o act)).2.entries) := by
  have hshape : ∀ st, ReadList.Reachable o (vs.ReadList o s act) st →
      Shape o (vs.c.ReadList s (listURL o act)).2.entries (vs.c.ReadList s (listURL o act)).2.err st :=
    fun st h => shape_reachable o _ _ st h
  have hret : ∀ st, ReadList.Reachable o (vs.ReadList o s act) st →
      ∀ err, ReadList.result st = some err →
        st.out = decoded o (vs.c.ReadList s (listURL o act)).2.entries ∧
        st.out.length = (vs.c.ReadList s (listURL o act)).2.entries.length ∧
        err = (vs.c.ReadList s (listURL o act)).2.err := by
    intro st h err hr
    have := (shape_out o _ _ st (hshape st h) hdec).2 err hr
    exact ⟨this.1, by rw [this.1]; exact decoded_length o _ hdec, this.2⟩
  have hprog : ∀ st, ReadList.Reachable o (vs.ReadList o s act) st →
      ReadList.result st = none → ReadList.next o st ≠ [] :=
    fun st h hr => shape_progress o _ _ st (hshape st h) hdec hr
  refine ⟨fun st h => (shape_out o _ _ st (hshape st h) hdec).1, hret, hprog,
    step_weight o, ?_⟩
  have hrun := run_spec o (ReadList.weight (vs.ReadList o s act)) (vs.ReadList o s act)
  have hend := hrun.2 (le_refl _)
  cases hr : ReadList.result
      (ReadList.run o (ReadList.weight (vs.ReadList o s act)) (vs.ReadList o s act)) with
  | none => exact (hprog _ hrun.1 hr hend).elim
  | some err =>
    have := hret _ hrun.1 err hr
    exact ⟨by rw [this.2.2], this.1⟩

/-- Scenario of C7: three entries that decode. -/
theorem ReadList_delivers_all_witness :
    ReadList.result (ReadList.run sampleOutside
        (ReadList.weight (VideoService.ReadList sampleOutside
          ⟨listServer ["a", "b", "c"] none⟩ () "1"))
        (VideoService.ReadList sampleOutside ⟨listServer ["a", "b", "c"] none⟩ () "1"))
        = some none ∧
      (ReadList.run sampleOutside
        (ReadList.weight (VideoService.ReadList sampleOutside
          ⟨listServer ["a", "b", "c"] none⟩ () "1"))
        (VideoService.ReadList sampleOutside ⟨listServer ["a", "b", "c"] none⟩ () "1")).out
        = decoded sampleOutside ["a", "b", "c"] :=
  (ReadList_delivers_all sampleOutside ⟨listServer ["a", "b", "c"] none⟩ () "1"
    (fun e he => ⟨{ (default : Video) with ID := e }, by
      have h : e = "a" ∨ e = "b" ∨ e = "c" := by simpa [listServer] using he
      rcases h with h | h | h <;> subst h <;> rfl⟩)).2.2.2.2

/-- When an entry that does not decode is followed by a further entry, no
schedule lets `ReadList` return: the decode goroutine has returned, nothing
receives from `jres` any more, and the fetch goroutine waits in its next push. -/
theorem readList_blocked (o : Outside) (pre : List json.RawMessage) (bad : json.RawMessage)
    (post : List json.RawMessage) (ferr : Option Error) (err : Error)
    (hbad : o.Unmarshal bad = .error err) (hpost : post ≠ [])
    (st : ReadList.State)
    (h : ReadList.Reachable o ⟨.pushing (pre ++ bad :: post) ferr, .ranging, none, []⟩ st) :
    ReadList.result st = none := by
  have hnot : ¬ Decodes o bad := by
    rintro ⟨v, hv⟩
    rw [hbad] at hv
    cases hv
  have hs := shape_reachable o _ _ st h
  cases hs with
  | ranging done pend hh hok => rfl
  | holding done e pend hh hok => rfl
  | sending done e v pend hh hok hv => rfl
  | failed done e err pend hh hok hv => rfl
  | closedRanging hok => rfl
  | closedHolding done e hh hok => rfl
  | closedSending done e v hh hok hv => rfl
  | closedFailed done e err1 hh hok hv fe hfe =>
    exfalso
    rcases append_split done [e] bad post pre hh.symm with ⟨post1, h1, _⟩ | ⟨pre2, _, h2⟩
    · exact hnot (hok bad (by rw [h1]; simp))
    · cases pre2 with
      | nil =>
        simp only [List.nil_append, List.cons.injEq] at h2
        exact hpost h2.2.symm
      | cons p pre2 => simp at h2
  | finished hok => exact (hnot (hok bad (by simp))).elim

/-- C8 fails on the code: when the paginated read emits "a", then the
malformed entry "bad", then "c", no schedule of the two goroutines lets
`ReadList` return; the run of the first-enabled scheduler ends in a state where
the decoding error is recorded and only the video of "a" was delivered, but the
fetch goroutine still waits to push "c" and no action is enabled. -/
theorem ReadList_decode_error_hangs :
    (¬ ∃ st, ReadList.Reachable sampleOutside
        (VideoService.ReadList sampleOutside ⟨listServer ["a", "bad", "c"] none⟩ () "1") st ∧
        ReadList.result st ≠ none) ∧
    ReadList.run sampleOutside 20
        (VideoService.ReadList sampleOutside ⟨listServer ["a", "bad", "c"] none⟩ () "1")
      = ⟨.pushing ["c"] none, .returned, some "unexpected end of JSON input",
          [{ (default : Video) with ID := "a" }]⟩ ∧
    ReadList.next sampleOutside ⟨.pushing ["c"] none, .returned,
        some "unexpected end of JSON input", [{ (default : Video) with ID := "a" }]⟩ = [] := by
  refine ⟨?_, by decide, by decide⟩
  rintro ⟨st, hreach, hres⟩
  exact hres (readList_blocked sampleOutside ["a"] "bad" ["c"] none
    "unexpected end of JSON input" rfl (by simp) st hreach)

/-- The journal only observes: without it, the loop of the journalled client
is the loop of the client. -/
theorem loop_logged {σ ρ : Type} (vs : VideoService σ ρ) (url title : String) (r : ρ)
    (fuel : Nat) :
    ∀ (s : σ) (log : List (Event ρ)) (res : uploadVideoResponse) (size : Int),
      (Upload.loop vs.logged url title r fuel (s, log) res size).map Prod.fst
        = Upload.loop vs url title r fuel s res size := by
  induction fuel with
  | zero =>
    intro s log res size
    by_cases h : size > 0 <;> simp [Upload.loop, h, Upload.LoopExit.map]
  | succ fuel ih =>
    intro s log res size
    by_cases h : size > 0
    · rcases hcall : vs.c.UploadFile s url title (io.LimitReader r (chunkOf res size))
        (transferParams res) res with ⟨s1, out, err⟩
      have hl : vs.logged.c.UploadFile (s, log) url title (io.LimitReader r (chunkOf res size))
          (transferParams res) res =
          ((s1, log ++ [transferEvent url title r res size out err]), out, err) := by
        rw [show vs.logged.c = vs.c.logged from rfl, logged_UploadFile, hcall]
        rfl
      rw [loop_succ vs.logged url title r fuel (s, log) res size h _ _ _ hl,
        loop_succ vs url title r fuel s res size h _ _ _ hcall]
      cases err with
      | some e => rfl
      | none => exact ih _ _ _ _
    · rw [loop_of_not_pos _ _ _ _ _ _ _ _ h, loop_of_not_pos _ _ _ _ _ _ _ _ h]
      rfl

/-- The journal only observes: `Upload` on the journalled client returns what
`Upload` on the client returns and leaves the client in the same world. -/
theorem upload_logged {σ ρ : Type} (o : Outside) (vs : VideoService σ ρ) (fuel : Nat) (s : σ)
    (log : List (Event ρ)) (act title : String) (size : Int) (r : ρ) :
    ((vs.logged.Upload o fuel (s, log) act title size r).1.1,
      (vs.logged.Upload o fuel (s, log) act title size r).2)
      = vs.Upload o fuel s act title size r := by
  have hloop := loop_logged vs (uploadURL o act) title r fuel
  have hstart : vs.logged.c.PostJSONStart (s, log)
      (o.RouteString (fb.NewRoute o.Version ("/act_" ++ act ++ "/advideos")))
      ⟨"start", size⟩ default =
      (((vs.c.PostJSONStart s (uploadURL o act) ⟨"start", size⟩ default).1,
        log ++ [startEvent o act size
          (vs.c.PostJSONStart s (uploadURL o act) ⟨"start", size⟩ default).2.1
          (vs.c.PostJSONStart s (uploadURL o act) ⟨"start", size⟩ default).2.2]),
       (vs.c.PostJSONStart s (uploadURL o act) ⟨"start", size⟩ default).2.1,
       (vs.c.PostJSONStart s (uploadURL o act) ⟨"start", size⟩ default).2.2) := rfl
  rcases upload_cases o vs fuel s act title size r with
    ⟨s1, out, e, hs, hu⟩ | ⟨s1, out0, hs, hrest⟩
  · rw [hu]
    rw [hs] at hstart
    simp [VideoService.Upload, hstart]
  · rw [hs] at hstart
    simp only at hstart
    have hl2 := hloop s1 (log ++ [startEvent o act size out0 none]) out0 size
    unfold uploadURL at hl2
    rcases hrest with ⟨s2, hl, hu⟩ | ⟨s2, e, hl, hu⟩ | ⟨s2, res, size1, hl, hfin⟩
    · rw [hu]
      unfold uploadURL at hl
      rw [hl] at hl2
      cases hx : Upload.loop vs.logged
          (o.RouteString (fb.NewRoute o.Version ("/act_" ++ act ++ "/advideos")))
          title r fuel (s1, log ++ [startEvent o act size out0 none]) out0 size with
      | failed st e => rw [hx] at hl2; simp [Upload.LoopExit.map] at hl2
      | done st res size1 => rw [hx] at hl2; simp [Upload.LoopExit.map] at hl2
      | running st =>
        rw [hx] at hl2
        simp only [Upload.LoopExit.map, Upload.LoopExit.running.injEq] at hl2
        simp [VideoService.Upload, hstart, hx, hl2]
    · rw [hu]
      unfold uploadURL at hl
      rw [hl] at hl2
      cases hx : Upload.loop vs.logged
          (o.RouteString (fb.NewRoute o.Version ("/act_" ++ act ++ "/advideos")))
          title r fuel (s1, log ++ [startEvent o act size out0 none]) out0 size with
      | running st => rw [hx] at hl2; simp [Upload.LoopExit.map] at hl2
      | done st res size1 => rw [hx] at hl2; simp [Upload.LoopExit.map] at hl2
      | failed st e1 =>
        rw [hx] at hl2
        simp only [Upload.LoopExit.map, Upload.LoopExit.failed.injEq] at hl2
        simp [VideoService.Upload, hstart, hx, hl2]
    · unfold uploadURL at hl
      rw [hl] at hl2
      cases hx : Upload.loop vs.logged
          (o.RouteString (fb.NewRoute o.Version ("/act_" ++ act ++ "/advideos")))
          title r fuel (s1, log ++ [startEvent o act size out0 none]) out0 size with
      | running st => rw [hx] at hl2; simp [Upload.LoopExit.map] at hl2
      | failed st e1 => rw [hx] at hl2; simp [Upload.LoopExit.map] at hl2
      | done st res1 size2 =>
        rw [hx] at hl2
        simp only [Upload.LoopExit.map, Upload.LoopExit.done.injEq] at hl2
        obtain ⟨h1, h2, h3⟩ := hl2
        subst h2 h3
        have hfinish : vs.logged.c.PostJSONEnd st
            (o.RouteString (fb.NewRoute o.Version ("/act_" ++ act ++ "/advideos")))
            ⟨"finish", res1.UploadSessionID, title⟩ default =
            (((vs.c.PostJSONEnd st.1 (uploadURL o act)
                ⟨"finish", res1.UploadSessionID, title⟩ default).1,
              st.2 ++ [finishEvent o act title res1
                (vs.c.PostJSONEnd st.1 (uploadURL o act)
                  ⟨"finish", res1.UploadSessionID, title⟩ default).2.1
                (vs.c.PostJSONEnd st.1 (uploadURL o act)
                  ⟨"finish", res1.UploadSessionID, title⟩ default).2.2]),
             (vs.c.PostJSONEnd st.1 (uploadURL o act)
                ⟨"finish", res1.UploadSessionID, title⟩ default).2.1,
             (vs.c.PostJSONEnd st.1 (uploadURL o act)
                ⟨"finish", res1.UploadSessionID, title⟩ default).2.2) := rfl
        rw [h1] at hfinish
        rcases hfin with ⟨s3, fout, e, hf, hu⟩ | ⟨s3, fout, hf, hu⟩
        · rw [hu]
          rw [hf] at hfinish
          simp [VideoService.Upload, hstart, hx, hfinish]
        · rw [hu]
          rw [hf] at hfinish
          simp only [VideoService.Upload, hstart, hx, hfinish]
          rw [get_journal, get_eq]

end v20
